import Mathlib

/-!
# rbuild MinGW backend (`tools/rbuild/backend/mingw/mingw.cpp`)

A shallow embedding of the makefile generator of the MinGW backend and the
properties of its specification.

Conventions of the embedding:

* `std::string` is `String`; a `const char*` argument is the `List Char` of
  the characters before the terminating NUL.
* `std::map<string, Directory*>` is an association list kept in ascending key
  order, the order in which `std::map` iterates.  `std::string` compares
  character by character, which is `List Char` order on `String.data`.
* Text written to `fMakefile` with `fprintf` is the `String` a function
  returns; consecutive `fprintf` calls are concatenation.
* A `for` loop over a vector is a recursive function over the list.
-/

namespace Rbuild

/-! ## Directory tree -/

/-- The class `Directory`: a name and the map of its sub-directories. -/
inductive Directory where
  | mk (name : String) (subdirs : List (String × Directory))

namespace Directory

/-- Field `name`. -/
def name : Directory → String
  | mk n _ => n

/-- Field `subdirs`. -/
def subdirs : Directory → List (String × Directory)
  | mk _ s => s

end Directory

/-- The set of characters given to `strpbrk` in `Directory::Add`: `"/\\"`. -/
def isSep (c : Char) : Bool := c == '/' || c == '\\'

/-- `subdirs.find(s)`: the entry stored under key `k`, if any. -/
def mapFind : List (String × Directory) → String → Option Directory
  | [], _ => none
  | (k', d) :: rest, k => if k' = k then some d else mapFind rest k

/-- `subdirs[s] = d`: store `d` under key `k`, keeping ascending key order;
an entry already stored under `k` is overwritten. -/
def mapSet : List (String × Directory) → String → Directory → List (String × Directory)
  | [], k, d => [(k, d)]
  | (k', d') :: rest, k, d =>
    if k.data < k'.data then (k, d) :: (k', d') :: rest
    else if k' = k then (k, d) :: rest
    else (k', d') :: mapSet rest k d

/-- `subdirs[s]->f()`: apply `f` in place to the entry stored under key `k`. -/
def mapUpdate : List (String × Directory) → String → (Directory → Directory) →
    List (String × Directory)
  | [], _, _ => []
  | (k', d) :: rest, k, f =>
    if k' = k then (k', f d) :: rest else (k', d) :: mapUpdate rest k f

/-- `Directory::Add` with a recursion budget.  One unit of fuel is one call of
the function; `Add` below supplies more than the recursion can use.

* `s` is the text before the first separator (`strpbrk`, or the whole string),
* `p` is the rest of the string from that separator on,
* the entry for `s` is created when `find` does not find it,
* `*p && *++p`: when a separator was found and a character follows it, the
  function recurses into the entry for `s` with the text after the separator. -/
def AddFuel : Nat → Directory → List Char → Directory
  | 0, d, _ => d
  | fuel + 1, d, subdir =>
    let s := String.mk (subdir.takeWhile (fun c => !isSep c))
    let p := subdir.dropWhile (fun c => !isSep c)
    let subdirs :=
      if (mapFind d.subdirs s).isNone then mapSet d.subdirs s (Directory.mk s [])
      else d.subdirs
    match p with
    | _ :: c :: r => Directory.mk d.name (mapUpdate subdirs s (fun e => AddFuel fuel e (c :: r)))
    | _ => Directory.mk d.name subdirs

/-- `Directory::Add ( const char* subdir )`.  Every recursive call is on a
strictly shorter string, so `subdir.length + 1` calls are never exceeded
(`AddFuel_eq_addSegments`). -/
def Directory.Add (d : Directory) (subdir : String) : Directory :=
  AddFuel (subdir.length + 1) d subdir.data

section Separator

-- The macro `CSEP` is declared outside this file: the path separator
-- character of the host, a parameter of everything that prints a path.
variable (CSEP : Char)

/-- Modelled from the spec: the macro `SSEP` is declared outside the source
file.  The rule of a directory "depends on its parent's creation target", so
the path accumulated with `SSEP` is the target printed with `CSEP`: `SSEP` is
the separator `CSEP` as a one-character string. -/
def SSEP : String := String.singleton CSEP

mutual
/-- `Directory::CreateRule ( FILE* f, const string& parent )`: the text written
to `f`. -/
def CreateRule : Directory → String → String
  | Directory.mk name subdirs, parent =>
    if parent.length ≠ 0 then
      (parent ++ String.singleton CSEP ++ name ++ ": " ++ parent ++ "\n")
        ++ "\t$(ECHO_MKDIR)\n"
        ++ "\t$\x7bmkdir\x7d $@\n"
        ++ CreateRuleSubdirs subdirs (parent ++ SSEP CSEP ++ name)
    else
      CreateRuleSubdirs subdirs name
/-- The loop over `subdirs` at the end of `Directory::CreateRule`. -/
def CreateRuleSubdirs : List (String × Directory) → String → String
  | [], _ => ""
  | (_, d) :: rest, path => CreateRule d path ++ CreateRuleSubdirs rest path
end

/-- The three `fprintf` calls of `Directory::CreateRule` for one directory:
the rule `target: prerequisite` and its two tab-indented command lines. -/
def renderRule (target prerequisite : String) : String :=
  (target ++ ": " ++ prerequisite ++ "\n") ++ "\t$(ECHO_MKDIR)\n" ++ "\t$\x7bmkdir\x7d $@\n"

/-- The text of a list of rules `(target, prerequisite)`, one after the other. -/
def renderRules : List (String × String) → String
  | [] => ""
  | (t, p) :: rs => renderRule t p ++ renderRules rs

mutual
/-- Specification of the creation rules (spec 4.1): a node below the root has
one rule, whose target is its accumulated path (parent path, separator, name)
and whose prerequisite is the accumulated path of its parent; the rules of its
children follow, with the accumulated path as their parent path. -/
def rulesOfNode : Directory → String → List (String × String)
  | Directory.mk name subdirs, parentPath =>
    (parentPath ++ SSEP CSEP ++ name, parentPath)
      :: rulesOfSubdirs subdirs (parentPath ++ SSEP CSEP ++ name)
/-- The rules of a list of sibling nodes, in the order of the list. -/
def rulesOfSubdirs : List (String × Directory) → String → List (String × String)
  | [], _ => []
  | (_, d) :: rest, path => rulesOfNode d path ++ rulesOfSubdirs rest path
end

/-- The creation rules of a tree: the root has none, its accumulated path is
its name. -/
def creationRules (root : Directory) : List (String × String) :=
  rulesOfSubdirs CSEP root.subdirs root.name

end Separator

mutual
/-- Number of nodes of a tree, the root included. -/
def nodeCount : Directory → Nat
  | Directory.mk _ subdirs => 1 + nodeCountSubdirs subdirs
/-- Number of nodes in a list of sibling subtrees. -/
def nodeCountSubdirs : List (String × Directory) → Nat
  | [] => 0
  | (_, d) :: rest => nodeCount d + nodeCountSubdirs rest
end

/-- Number of nodes below the root. -/
def nonRootCount (root : Directory) : Nat := nodeCountSubdirs root.subdirs

/-- Segments of a path split on `/` and `\\`: a separator ends the current
segment and starts the next one. -/
def splitPath : List Char → List (List Char)
  | [] => [[]]
  | c :: r =>
    if isSep c then [] :: splitPath r
    else match splitPath r with
      | [] => [[c]]
      | s :: ss => (c :: s) :: ss

/-- Segments of a path as `Directory::Add` reads them: as `splitPath`, but a
separator that ends the path starts no further segment. -/
def pathSegments : List Char → List (List Char)
  | [] => [[]]
  | c :: r =>
    if isSep c then (if r = [] then [[]] else [] :: pathSegments r)
    else match pathSegments r with
      | [] => [[c]]
      | s :: ss => (c :: s) :: ss

/-- The path without one final separator, if it ends in one. -/
def dropTrailingSep : List Char → List Char
  | [] => []
  | [c] => if isSep c then [] else [c]
  | c :: r => c :: dropTrailingSep r

/-- The prefixes of a path under a segmentation `seg`: the non-empty initial
sequences of its segments. -/
def prefixesBy (seg : List Char → List (List Char)) (path : String) : List (List String) :=
  ((seg path.data).map String.mk).inits.tail

/-- The distinct prefixes across a list of paths under a segmentation. -/
def distinctPrefixes (seg : List Char → List (List Char)) (paths : List String) :
    List (List String) :=
  (paths.flatMap (prefixesBy seg)).dedup

/-- Insertion of one segment list, segment by segment: what `Directory::Add`
does once the path is cut into segments. -/
def addSegments : Directory → List String → Directory
  | d, [] => d
  | d, s :: rest =>
    let subdirs :=
      if (mapFind d.subdirs s).isNone then mapSet d.subdirs s (Directory.mk s [])
      else d.subdirs
    match rest with
    | [] => Directory.mk d.name subdirs
    | _ :: _ => Directory.mk d.name (mapUpdate subdirs s (fun e => addSegments e rest))

mutual
/-- The key paths of the nodes below a node: for each, the keys from the node
down to it. -/
def keyPaths : Directory → List (List String)
  | Directory.mk _ subdirs => keyPathsSubdirs subdirs
/-- The key paths through a list of entries. -/
def keyPathsSubdirs : List (String × Directory) → List (List String)
  | [] => []
  | (k, d) :: rest => ([k] :: (keyPaths d).map (k :: ·)) ++ keyPathsSubdirs rest
end

mutual
/-- Every map of the tree holds each key once, as a `std::map` does. -/
def UniqueKeys : Directory → Prop
  | Directory.mk _ subdirs => UniqueKeysSubdirs subdirs
/-- The keys of the list are distinct and every entry has unique keys. -/
def UniqueKeysSubdirs : List (String × Directory) → Prop
  | [] => True
  | (k, d) :: rest =>
    (∀ e ∈ rest, e.1 ≠ k) ∧ UniqueKeys d ∧ UniqueKeysSubdirs rest
end

/-- The tree contains the node chain of a segment list: an entry for the first
segment, which contains the chain of the remaining segments. -/
def containsChain : Directory → List String → Bool
  | _, [] => true
  | d, s :: rest =>
    match mapFind d.subdirs s with
    | none => false
    | some e => containsChain e rest

/-- The constructor of `MingwBackend` creates the two trees:
`int_directories` is `Directory("$(INTERMEDIATE)")` and `out_directories` is
`Directory("$(OUTPUT)")`; `out` selects the second. -/
def backendRoot ( out : Bool) : Directory :=
  if out then Directory.mk "$(OUTPUT)" [] else Directory.mk "$(INTERMEDIATE)" []


/-! ## Flags and properties -/

/-- An `Include`: the directory of an include path. -/
structure Include where
  directory : String
  deriving DecidableEq

/-- A `Define`: a name and a value, the value empty when none is given. -/
structure Define where
  name : String
  value : String
  deriving DecidableEq

/-- A `Property`: a name and a value. -/
structure Property where
  name : String
  value : String
  deriving DecidableEq

/-- A `LinkerFlag`. -/
structure LinkerFlag where
  flag : String
  deriving DecidableEq

/-- An `XMLInclude`: an included build file and whether it exists. -/
structure XMLInclude where
  topIncludeFilename : String
  fileExists : Bool
  deriving DecidableEq

mutual
/-- The class `IfableData` (the FlagSet of the spec): the fields the backend
reads. -/
inductive IfableData where
  | mk (includes : List Include) (defines : List Define) (properties : List Property)
      (ifs : List If)
/-- The class `If`: a conditional block on `property` having `value`. -/
inductive If where
  | mk (property : String) (value : String) (data : IfableData)
end

namespace IfableData

/-- Field `includes`. -/
def includes : IfableData → List Include
  | mk i _ _ _ => i

/-- Field `defines`. -/
def defines : IfableData → List Define
  | mk _ d _ _ => d

/-- Field `properties`. -/
def properties : IfableData → List Property
  | mk _ _ p _ => p

/-- Field `ifs`. -/
def ifs : IfableData → List If
  | mk _ _ _ b => b

end IfableData

namespace If

/-- Field `property`. -/
def property : If → String
  | mk p _ _ => p

/-- Field `value`. -/
def value : If → String
  | mk _ v _ => v

/-- Field `data`. -/
def data : If → IfableData
  | mk _ _ d => d

end If

/-- The loop over `data.includes` in `GenerateProjectCFlagsMacro`. -/
def includeFlags : List Include → String
  | [] => ""
  | i :: rest => (" -I" ++ i.directory) ++ includeFlags rest

/-- The loop over `data.defines` in `GenerateProjectCFlagsMacro`. -/
def defineFlags : List Define → String
  | [] => ""
  | d :: rest =>
    (" -D" ++ d.name) ++ (if d.value.length ≠ 0 then "=" ++ d.value else "") ++ defineFlags rest

/-- `MingwBackend::GenerateProjectCFlagsMacro ( assignmentOperation, data )`. -/
def GenerateProjectCFlagsMacro (assignmentOperation : String) (data : IfableData) : String :=
  ("PROJECT_CFLAGS " ++ assignmentOperation) ++ includeFlags data.includes
    ++ defineFlags data.defines ++ "\n"

/-- The loop over `data.properties` in `GenerateGlobalCFlagsAndProperties`. -/
def propertyLines : List Property → String
  | [] => ""
  | prop :: rest => (prop.name ++ " := " ++ prop.value ++ "\n") ++ propertyLines rest

mutual
/-- `MingwBackend::GenerateGlobalCFlagsAndProperties ( assignmentOperation, data )`. -/
def GenerateGlobalCFlagsAndProperties : String → IfableData → String
  | assignmentOperation, IfableData.mk includes defines properties ifs =>
    propertyLines properties
      ++ (if includes.length ≠ 0 ∨ defines.length ≠ 0 then
            GenerateProjectCFlagsMacro assignmentOperation
              (IfableData.mk includes defines properties ifs)
          else "")
      ++ GenerateIfs ifs
/-- The body of the loop over `data.ifs` for one block `rIf`. -/
def GenerateIf : If → String
  | If.mk property value data =>
    if data.defines.length ≠ 0 ∨ data.includes.length ≠ 0 ∨ data.ifs.length ≠ 0 then
      ("ifeq (\"$(" ++ property ++ ")\",\"" ++ value ++ "\")\n")
        ++ GenerateGlobalCFlagsAndProperties "+=" data
        ++ "endif\n\n"
    else ""
/-- The loop over `data.ifs` in `GenerateGlobalCFlagsAndProperties`. -/
def GenerateIfs : List If → String
  | [] => ""
  | rIf :: rest => GenerateIf rIf ++ GenerateIfs rest
end

mutual
/-- Specification of a recursively empty FlagSet: no properties, no includes,
no defines, and every nested block recursively empty. -/
def recursivelyEmpty : IfableData → Bool
  | IfableData.mk includes defines properties ifs =>
    properties.isEmpty && includes.isEmpty && defines.isEmpty && recursivelyEmptyIfs ifs
/-- A block is recursively empty when its nested FlagSet is. -/
def recursivelyEmptyIf : If → Bool
  | If.mk _ _ data => recursivelyEmpty data
/-- Every block of the list is recursively empty. -/
def recursivelyEmptyIfs : List If → Bool
  | [] => true
  | b :: rest => recursivelyEmptyIf b && recursivelyEmptyIfs rest
end

/-- The assignment operator the spec gives a FlagSet at a nesting depth:
overwrite at the top level, append inside any conditional block. -/
def operatorAtDepth (depth : Nat) : String :=
  if depth = 0 then "=" else "+="

mutual
/-- Specification of the emission of a FlagSet at a nesting depth (spec 4.2):
the properties, one flags line with the operator of the depth, then every
block the backend keeps, its content one level deeper. -/
def emitAtDepth : Nat → IfableData → String
  | depth, IfableData.mk includes defines properties ifs =>
    propertyLines properties
      ++ (if includes.length ≠ 0 ∨ defines.length ≠ 0 then
            GenerateProjectCFlagsMacro (operatorAtDepth depth)
              (IfableData.mk includes defines properties ifs)
          else "")
      ++ emitIfsAtDepth depth ifs
/-- One block at a depth: guard, content one level deeper, `endif`. -/
def emitIfAtDepth : Nat → If → String
  | depth, If.mk property value data =>
    if data.defines.length ≠ 0 ∨ data.includes.length ≠ 0 ∨ data.ifs.length ≠ 0 then
      ("ifeq (\"$(" ++ property ++ ")\",\"" ++ value ++ "\")\n")
        ++ emitAtDepth (depth + 1) data
        ++ "endif\n\n"
    else ""
/-- The blocks of a FlagSet at a depth. -/
def emitIfsAtDepth : Nat → List If → String
  | _, [] => ""
  | depth, b :: rest => emitIfAtDepth depth b ++ emitIfsAtDepth depth rest
end

/-! ## Modules and the project -/

/-- Modelled from the spec: the enumeration `ModuleType` is declared outside
the source file.  The spec names the types ObjectLibrary, BootSector, Iso and
BuildTool "and others", and the type Program in its example; `Other n` stands
for the remaining types. -/
inductive ModuleType where
  | BuildTool
  | ObjectLibrary
  | BootSector
  | Iso
  | Program
  | Other (n : Nat)
  deriving DecidableEq

/-- Modelled from the spec: the enumeration `HostType` is declared outside the
source file; `HostDefault` is the "unset" value of the spec. -/
inductive HostType where
  | HostFalse
  | HostDefault
  | HostTrue
  deriving DecidableEq

/-- The fields of a `Module` the backend reads or writes. -/
structure Module where
  name : String
  type : ModuleType
  host : HostType
  deriving DecidableEq

/-- A `MingwModuleHandler`, as far as the backend looks into it: the module it
was instantiated for. -/
structure MingwModuleHandler where
  module : Module
  deriving DecidableEq

/-- The fields of the `Project` the backend reads. -/
structure Project where
  modules : List Module
  non_if_data : IfableData
  linkerFlags : List LinkerFlag
  xmlbuildfiles : List XMLInclude
  makefile : String
  projectFilename : String

/-- The loop of `MingwBackend::GenerateProjectLFLAGS`; `lflags` is the string
built so far. -/
def lflagsLoop : List LinkerFlag → String → String
  | [], lflags => lflags
  | linkerFlag :: rest, lflags =>
    lflagsLoop rest ((if lflags.length > 0 then lflags ++ " " else lflags) ++ linkerFlag.flag)

/-- `MingwBackend::GenerateProjectLFLAGS ()`. -/
def GenerateProjectLFLAGS (ProjectNode : Project) : String :=
  lflagsLoop ProjectNode.linkerFlags ""

/-- `MingwBackend::GenerateGlobalVariables ()`. -/
def GenerateGlobalVariables (ProjectNode : Project) : String :=
  GenerateGlobalCFlagsAndProperties "=" ProjectNode.non_if_data
    ++ "PROJECT_RCFLAGS = $(PROJECT_CFLAGS)\n"
    ++ ("PROJECT_LFLAGS = " ++ GenerateProjectLFLAGS ProjectNode ++ "\n")
    ++ "\n"

/-- `MingwBackend::IncludeInAllTarget ( module )`. -/
def IncludeInAllTarget (module : Module) : Bool :=
  if module.type = ModuleType.ObjectLibrary then false
  else if module.type = ModuleType.BootSector then false
  else if module.type = ModuleType.Iso then false
  else true

section AllTarget

-- `GetTargetMacro` is defined outside this file: the text naming the target
-- of a module, a parameter of the functions that print it.
variable (GetTargetMacro : Module → String)

/-- The loop of `MingwBackend::GenerateAllTarget` from a value of `wrap_count`
on: `wrap_count++ == 5` compares the old value, the increment always
happens, and the body resets the counter after printing the continuation. -/
def allTargetLoop : List MingwModuleHandler → Nat → String
  | [], _ => ""
  | h :: rest, wrap_count =>
    if IncludeInAllTarget h.module then
      (if wrap_count = 5 then " \\\n\t\t" else "")
        ++ (" " ++ GetTargetMacro h.module)
        ++ allTargetLoop rest (if wrap_count = 5 then 0 else wrap_count + 1)
    else allTargetLoop rest wrap_count

/-- `MingwBackend::GenerateAllTarget ( handlers )`. -/
def GenerateAllTarget (handlers : List MingwModuleHandler) : String :=
  "all:" ++ allTargetLoop GetTargetMacro handlers 0 ++ "\n\t\n\n"

end AllTarget

/-- Specification of the entries of a wrapped list: every entry once, in
order, after a blank; `count` entries stand on the current line, and a
continuation (backslash, newline, two tabs) is printed before an entry when
the counter has reached 5. -/
def listEntries : List String → Nat → String
  | [], _ => ""
  | e :: rest, count =>
    (if count = 5 then " \\\n\t\t" else "") ++ (" " ++ e)
      ++ listEntries rest (if count = 5 then 0 else count + 1)

/-! ## The generation pipeline -/

/-- The calls `MingwBackend::Process` makes, in the order of the source; a
call on the rule generator of a module carries the index of the module in the
project. -/
inductive Call where
  | DetectPCHSupport
  | CreateMakefile
  | GenerateHeader
  | GenerateGlobalVariables
  | GenerateXmlBuildFilesMacro
  | InstanciateHandler (i : Nat)
  | DefaultHost (i : Nat)
  | GenerateObjectMacro (i : Nat)
  | GenerateTargetMacro (i : Nat)
  | GenerateAllTarget
  | GenerateInitTarget
  | GenerateOtherMacros (i : Nat)
  | GeneratePreconditionDependencies (i : Nat)
  | Process (i : Nat)
  | GenerateInvocations (i : Nat)
  | GenerateCleanTarget (i : Nat)
  | Delete (i : Nat)
  | GenerateDirectoryTargets
  | CheckAutomaticDependencies
  | CloseMakefile
  deriving DecidableEq

/-- How a run of `MingwBackend::Process` ends. -/
inductive Outcome where
  | completed
  | accessDenied
  | assertionFailed
  deriving DecidableEq

/-- What `MingwBackend::Process` depends on outside the project: whether
`fopen` of the makefile succeeds, and the `DefaultHost()` of the rule generator
`InstanciateHandler` returns for a module. -/
structure Environment where
  canOpenMakefile : Bool
  DefaultHost : Module → HostType

/-- The result of a run: the calls made, the modules of the project after the
run, and how the run ended. -/
structure Run where
  calls : List Call
  modules : List Module
  outcome : Outcome

/-- The module-instantiation loop of `MingwBackend::Process` from index `i` on:
the calls made, the modules after the loop, and whether every `assert` held.
A failing `assert` ends the run. -/
def instantiateHandlers (DefaultHost : Module → HostType) :
    Nat → List Module → List Call × List Module × Bool
  | _, [] => ([], [], true)
  | i, module :: rest =>
    if module.host = HostType.HostDefault then
      let module' := { module with host := DefaultHost module }
      if module'.host ≠ HostType.HostDefault then
        let r := instantiateHandlers DefaultHost (i + 1) rest
        (Call.InstanciateHandler i :: Call.DefaultHost i :: r.1, module' :: r.2.1, r.2.2)
      else
        ([Call.InstanciateHandler i, Call.DefaultHost i], module' :: rest, false)
    else
      let r := instantiateHandlers DefaultHost (i + 1) rest
      (Call.InstanciateHandler i :: r.1, module :: r.2.1, r.2.2)

/-- The last loop of `MingwBackend::Process`, for the generator of module `i`. -/
def moduleRules (i : Nat) : List Call :=
  [Call.GeneratePreconditionDependencies i, Call.Process i, Call.GenerateInvocations i,
    Call.GenerateCleanTarget i, Call.Delete i]

/-- `MingwBackend::Process ()`: the sequence of calls of a run. -/
def Process (env : Environment) (ProjectNode : Project) : Run :=
  if env.canOpenMakefile then
    let r := instantiateHandlers env.DefaultHost 0 ProjectNode.modules
    let start := [Call.DetectPCHSupport, Call.CreateMakefile, Call.GenerateHeader,
      Call.GenerateGlobalVariables, Call.GenerateXmlBuildFilesMacro] ++ r.1
    if r.2.2 then
      let iend := r.2.1.length
      { calls := start
          ++ (List.range iend).map Call.GenerateObjectMacro
          ++ (List.range iend).map Call.GenerateTargetMacro
          ++ [Call.GenerateAllTarget, Call.GenerateInitTarget]
          ++ (List.range iend).map Call.GenerateOtherMacros
          ++ (List.range iend).flatMap moduleRules
          ++ [Call.GenerateDirectoryTargets, Call.CheckAutomaticDependencies,
              Call.CloseMakefile]
        modules := r.2.1
        outcome := Outcome.completed }
    else
      { calls := start, modules := r.2.1, outcome := Outcome.assertionFailed }
  else
    { calls := [Call.DetectPCHSupport, Call.CreateMakefile]
      modules := ProjectNode.modules
      outcome := Outcome.accessDenied }

/-- The calls of the two macro phases. -/
def Call.isMacroPhase : Call → Bool
  | Call.GenerateObjectMacro _ => true
  | Call.GenerateTargetMacro _ => true
  | _ => false

/-! ## The list of build files -/

/-- The two statements of `GenerateXmlBuildFilesMacro` that add a file name to
`xmlbuildFilenames`: a blank first when the string is not empty, then the
name. -/
def appendFilename (xmlbuildFilenames name : String) : String :=
  (if xmlbuildFilenames.length > 0 then xmlbuildFilenames ++ " " else xmlbuildFilenames) ++ name

section XmlBuildFiles

-- `NormalizeFilename` is defined outside this file: a parameter of the
-- functions that print a file name.
variable (NormalizeFilename : String → String)

/-- The loop of `MingwBackend::GenerateXmlBuildFilesMacro` from index `i` on;
`size` is `ProjectNode.xmlbuildfiles.size ()`.  The counter
`numberOfExistingFiles` is incremented before the name is added and once more
at the end of the body; what `xmlbuildFilenames` holds when the loop ends is
not written.  The counter is an `int` in the source and a `Nat` here. -/
def xmlBuildFilesLoop (size : Nat) : List XMLInclude → Nat → Nat → String → String
  | [], _, _, _ => ""
  | xmlbuildfile :: rest, i, numberOfExistingFiles, xmlbuildFilenames =>
    if !xmlbuildfile.fileExists then
      xmlBuildFilesLoop size rest (i + 1) numberOfExistingFiles xmlbuildFilenames
    else
      if (numberOfExistingFiles + 1) % 5 = 4 ∨ i = size - 1 then
        ("\t" ++ appendFilename xmlbuildFilenames
            (NormalizeFilename xmlbuildfile.topIncludeFilename))
          ++ (if i = size - 1 then "\n" else " \\\n")
          ++ xmlBuildFilesLoop size rest (i + 1) (numberOfExistingFiles + 1 + 1) ""
      else
        xmlBuildFilesLoop size rest (i + 1) (numberOfExistingFiles + 1 + 1)
          (appendFilename xmlbuildFilenames (NormalizeFilename xmlbuildfile.topIncludeFilename))

/-- `MingwBackend::GenerateXmlBuildFilesMacro ()`; `GetProjectFilename ()` is
the field `projectFilename`. -/
def GenerateXmlBuildFilesMacro (ProjectNode : Project) : String :=
  ("XMLBUILDFILES = " ++ ProjectNode.projectFilename ++ " \\\n")
    ++ xmlBuildFilesLoop NormalizeFilename ProjectNode.xmlbuildfiles.length
        ProjectNode.xmlbuildfiles 0 0 ""
    ++ "\n"

/-- Specification of the lines of the macro (spec 6): the files that exist
are gathered on the current line; the line is closed after an existing file
when the 1-based count of that file among the existing files is a multiple of
5 or the file is the final entry of the list (`i + 1 = size`).  A closed line
is its file names and whether it was closed by the final entry; `count` is the
number of existing files before index `i`, `pending` the names on the current
line. -/
def xmlLines (size : Nat) : List XMLInclude → Nat → Nat → List String →
    List (List String × Bool)
  | [], _, _, _ => []
  | file :: rest, i, count, pending =>
    if file.fileExists then
      if (count + 1) % 5 = 0 ∨ i + 1 = size then
        (pending ++ [NormalizeFilename file.topIncludeFilename], decide (i + 1 = size))
          :: xmlLines size rest (i + 1) (count + 1) []
      else
        xmlLines size rest (i + 1) (count + 1)
          (pending ++ [NormalizeFilename file.topIncludeFilename])
    else xmlLines size rest (i + 1) count pending

/-- The lines of the macro when every file exists, by list position alone: the
line is closed after the file at 1-based position `i + 1` when that position
is a multiple of 5 or the last one. -/
def xmlLinesByPosition (size : Nat) : List String → Nat → List String →
    List (List String × Bool)
  | [], _, _ => []
  | name :: rest, i, pending =>
    if (i + 1) % 5 = 0 ∨ i + 1 = size then
      (pending ++ [NormalizeFilename name], decide (i + 1 = size))
        :: xmlLinesByPosition size rest (i + 1) []
    else xmlLinesByPosition size rest (i + 1) (pending ++ [NormalizeFilename name])

end XmlBuildFiles

/-- The text of one closed line of the macro: a tab, the names as
`appendFilename` gathers them, and a newline after the final entry or a
backslash and a newline otherwise. -/
def renderXmlLine (line : List String × Bool) : String :=
  ("\t" ++ line.1.foldl appendFilename "") ++ (if line.2 then "\n" else " \\\n")

/-- The text of the closed lines, one after the other. -/
def renderXmlLines : List (List String × Bool) → String
  | [] => ""
  | line :: rest => renderXmlLine line ++ renderXmlLines rest

/-! ## Directory targets -/

/-- The body of the loop of `MingwBackend::GenerateDirectoryTargets` for one
value of `i`: the tree is `int_directories` for `i = 0` and
`out_directories` otherwise, and for `i ≠ 0` its rules stand between the
`ifneq` line and `endif`. -/
def directoryTargetsBody (CSEP : Char) (int_directories out_directories : Directory)
    (i : Nat) : String :=
  (if i ≠ 0 then "ifneq ($(INTERMEDIATE),$(OUTPUT))\n" else "")
    ++ CreateRule CSEP (if i = 0 then int_directories else out_directories) ""
    ++ (if i ≠ 0 then "endif\n" else "")

/-- `MingwBackend::GenerateDirectoryTargets ()`: the loop runs for `i = 0`
and `i = 1`. -/
def GenerateDirectoryTargets (CSEP : Char) (int_directories out_directories : Directory) :
    String :=
  directoryTargetsBody CSEP int_directories out_directories 0
    ++ directoryTargetsBody CSEP int_directories out_directories 1

/-! ## Phases of the pipeline -/

/-- The calls made on the rule generator of a module after the aggregate
targets, and its release. -/
def Call.isRemainingPhase : Call → Bool
  | Call.GenerateOtherMacros _ => true
  | Call.GeneratePreconditionDependencies _ => true
  | Call.Process _ => true
  | Call.GenerateInvocations _ => true
  | Call.GenerateCleanTarget _ => true
  | Call.Delete _ => true
  | _ => false

/-- The calls of the generation phases: everything `MingwBackend::Process`
does on the rule generators from `GenerateObjectMacro` on. -/
def Call.isGenerationPhase : Call → Bool
  | Call.GenerateObjectMacro _ => true
  | Call.GenerateTargetMacro _ => true
  | Call.GenerateAllTarget => true
  | Call.GenerateInitTarget => true
  | Call.GenerateOtherMacros _ => true
  | Call.GeneratePreconditionDependencies _ => true
  | Call.Process _ => true
  | Call.GenerateInvocations _ => true
  | Call.GenerateCleanTarget _ => true
  | Call.Delete _ => true
  | Call.GenerateDirectoryTargets => true
  | Call.CheckAutomaticDependencies => true
  | Call.CloseMakefile => true
  | _ => false

/-- The calls of the module-instantiation loop. -/
def Call.isInstantiation : Call → Bool
  | Call.InstanciateHandler _ => true
  | Call.DefaultHost _ => true
  | _ => false

/-- The host the instantiation loop leaves in a module: the host it had when
that was set, the `DefaultHost ()` of its rule generator otherwise. -/
def resolveHost (DefaultHost : Module → HostType) (module : Module) : Module :=
  if module.host = HostType.HostDefault then { module with host := DefaultHost module }
  else module

/-- The project after a run of `MingwBackend::Process`: the backend writes the
project only through `module.host` in the instantiation loop; the calls to
code outside the file are taken to leave the project alone. -/
def projectAfter (env : Environment) (ProjectNode : Project) : Project :=
  { ProjectNode with modules := (Process env ProjectNode).modules }

/-! ## Invariants of the directory tree -/

/-- The first statement of `Directory::Add` on the map: the entry for `s` is
created, with the name `s` and no sub-directories, when `find` does not find
it. -/
def ensureEntry (subdirs : List (String × Directory)) (s : String) :
    List (String × Directory) :=
  if (mapFind subdirs s).isNone then mapSet subdirs s (Directory.mk s []) else subdirs

mutual
/-- The name of every node below the given one is the key under which its
parent holds it. -/
def namesMatchKeys : Directory → Bool
  | Directory.mk _ subdirs => namesMatchKeysSubdirs subdirs
/-- Every entry of the list holds a node named as its key, and so below. -/
def namesMatchKeysSubdirs : List (String × Directory) → Bool
  | [] => true
  | (k, d) :: rest => decide (d.name = k) && namesMatchKeys d && namesMatchKeysSubdirs rest
end

mutual
/-- The name of every node below the given one is not empty. -/
def namesNonEmpty : Directory → Bool
  | Directory.mk _ subdirs => namesNonEmptySubdirs subdirs
/-- Every node of the list, and below, has a name that is not empty. -/
def namesNonEmptySubdirs : List (String × Directory) → Bool
  | [] => true
  | (_, d) :: rest => decide (d.name ≠ "") && namesNonEmpty d && namesNonEmptySubdirs rest
end

mutual
/-- The keys of every map of the tree stand in strictly ascending order, the
order in which `std::map` holds and iterates them. -/
def sortedKeys : Directory → Bool
  | Directory.mk _ subdirs => sortedKeysSubdirs subdirs
/-- The keys of the list ascend strictly, and so in every entry. -/
def sortedKeysSubdirs : List (String × Directory) → Bool
  | [] => true
  | (k, d) :: rest =>
    rest.all (fun e => decide (k.data < e.1.data)) && sortedKeys d && sortedKeysSubdirs rest
end

mutual
/-- The names of the sub-directories of every node stand in strictly
ascending order in the list `CreateRule` goes through. -/
def siblingNamesAscending : Directory → Bool
  | Directory.mk _ subdirs => siblingNamesAscendingSubdirs subdirs
/-- The names of the nodes of the list ascend strictly, and so below. -/
def siblingNamesAscendingSubdirs : List (String × Directory) → Bool
  | [] => true
  | (_, d) :: rest =>
    rest.all (fun e => decide (d.name.data < e.2.name.data)) && siblingNamesAscending d
      && siblingNamesAscendingSubdirs rest
end

/-- No two adjacent characters of the path are separators. -/
def noAdjacentSeparators : List Char → Bool
  | [] => true
  | [_] => true
  | c :: d :: r => !(isSep c && isSep d) && noAdjacentSeparators (d :: r)

/-- A plain path: not empty, not starting with a separator, and without two
adjacent separators. -/
def plainPath : List Char → Bool
  | [] => false
  | c :: r => !isSep c && noAdjacentSeparators (c :: r)

/-- Every rule of the list has a prerequisite that is known: one of `known`
or the target of a rule earlier in the list. -/
def prereqsEmitted : List String → List (String × String) → Bool
  | _, [] => true
  | known, (target, prerequisite) :: rest =>
    decide (prerequisite ∈ known) && prereqsEmitted (target :: known) rest

/-- The accumulated path of the node reached from a node of accumulated path
`path` by the keys `keys`, when every node is named as its key. -/
def joinKeys (CSEP : Char) (path : String) (keys : List String) : String :=
  keys.foldl (fun acc k => acc ++ SSEP CSEP ++ k) path

/-! # Theorems -/

/-! ## Creation rules -/

theorem renderRules_append (a b : List (String × String)) :
    renderRules (a ++ b) = renderRules a ++ renderRules b := by
  induction a with
  | nil => simp [renderRules]
  | cons r rs ih =>
    obtain ⟨t, p⟩ := r
    simp [renderRules, ih, String.append_assoc]

theorem length_append_ne_zero (a b : String) (h : a.length ≠ 0) : (a ++ b).length ≠ 0 := by
  rw [String.length_append]; omega

mutual
theorem CreateRule_eq_render (CSEP : Char) :
    ∀ (d : Directory) (parent : String), parent.length ≠ 0 →
      CreateRule CSEP d parent = renderRules (rulesOfNode CSEP d parent)
  | Directory.mk name subdirs, parent, h => by
    have h2 : (parent ++ SSEP CSEP ++ name).length ≠ 0 :=
      length_append_ne_zero _ _ (length_append_ne_zero _ _ h)
    rw [CreateRule, rulesOfNode, renderRules, if_pos h,
      CreateRuleSubdirs_eq_render CSEP subdirs _ h2]
    simp [renderRule, SSEP, String.append_assoc]
theorem CreateRuleSubdirs_eq_render (CSEP : Char) :
    ∀ (subdirs : List (String × Directory)) (path : String), path.length ≠ 0 →
      CreateRuleSubdirs CSEP subdirs path = renderRules (rulesOfSubdirs CSEP subdirs path)
  | [], _, _ => by simp [CreateRuleSubdirs, rulesOfSubdirs, renderRules]
  | (_, d) :: rest, path, h => by
    rw [CreateRuleSubdirs, rulesOfSubdirs, renderRules_append,
      CreateRule_eq_render CSEP d path h, CreateRuleSubdirs_eq_render CSEP rest path h]
end

mutual
theorem length_rulesOfNode (CSEP : Char) :
    ∀ (d : Directory) (parent : String), (rulesOfNode CSEP d parent).length = nodeCount d
  | Directory.mk name subdirs, parent => by
    rw [rulesOfNode, nodeCount, List.length_cons, length_rulesOfSubdirs CSEP subdirs]
    omega
theorem length_rulesOfSubdirs (CSEP : Char) :
    ∀ (subdirs : List (String × Directory)) (path : String),
      (rulesOfSubdirs CSEP subdirs path).length = nodeCountSubdirs subdirs
  | [], _ => by simp [rulesOfSubdirs, nodeCountSubdirs]
  | (_, d) :: rest, path => by
    rw [rulesOfSubdirs, nodeCountSubdirs, List.length_append, length_rulesOfNode CSEP d,
      length_rulesOfSubdirs CSEP rest]
end

theorem CreateRule_root (CSEP : Char) (root : Directory) (h : root.name ≠ "") :
    CreateRule CSEP root "" = renderRules (creationRules CSEP root) := by
  obtain ⟨name, subdirs⟩ := root
  have hn : name.length ≠ 0 := by
    intro h0
    apply h
    simp only [Directory.name]
    exact String.ext (List.length_eq_zero.mp h0)
  rw [CreateRule, creationRules]
  simp only [String.length, List.length_nil, ne_eq, not_true_eq_false,
    if_false, Directory.subdirs, Directory.name]
  exact CreateRuleSubdirs_eq_render CSEP subdirs name hn

/-! ## `Directory::Add` inserts the segments of the path -/

theorem pathSegments_ne_nil (l : List Char) : pathSegments l ≠ [] := by
  cases l with
  | nil => simp [pathSegments]
  | cons c r =>
    rw [pathSegments]
    split
    · split <;> simp
    · split <;> simp

theorem pathSegments_scan (subdir : List Char) :
    pathSegments subdir =
      subdir.takeWhile (fun c => !isSep c) ::
        (match subdir.dropWhile (fun c => !isSep c) with
          | _ :: c :: r => pathSegments (c :: r)
          | _ => []) := by
  induction subdir with
  | nil => simp [pathSegments]
  | cons c r ih =>
    by_cases hc : isSep c = true
    · cases r with
      | nil => simp [pathSegments, hc]
      | cons c2 r2 => simp [pathSegments, hc]
    · rw [pathSegments, if_neg hc, ih]
      simp [hc]

theorem AddFuel_eq_addSegments :
    ∀ (fuel : Nat) (d : Directory) (subdir : List Char), subdir.length < fuel →
      AddFuel fuel d subdir = addSegments d ((pathSegments subdir).map String.mk)
  | 0, _, _, h => by omega
  | fuel + 1, d, subdir, h => by
    rw [pathSegments_scan subdir, AddFuel]
    have hlen : (subdir.dropWhile (fun c => !isSep c)).length ≤ subdir.length :=
      (List.dropWhile_sublist _).length_le
    generalize hp : subdir.dropWhile (fun c => !isSep c) = p at hlen
    match p, hlen with
    | [], _ => simp [addSegments]
    | [_], _ => simp [addSegments]
    | x :: c :: r, hlen =>
      have hlt : (c :: r).length < fuel := by
        simp only [List.length_cons] at hlen ⊢
        omega
      have hrec : (fun e => AddFuel fuel e (c :: r)) =
          (fun e => addSegments e ((pathSegments (c :: r)).map String.mk)) := by
        funext e
        exact AddFuel_eq_addSegments fuel e (c :: r) hlt
      simp only [hrec, List.map_cons]
      cases hs : pathSegments (c :: r) with
      | nil => exact absurd hs (pathSegments_ne_nil _)
      | cons s ss => simp [addSegments]

theorem Add_eq_addSegments (d : Directory) (subdir : String) :
    d.Add subdir = addSegments d ((pathSegments subdir.data).map String.mk) :=
  AddFuel_eq_addSegments _ d subdir.data (Nat.lt_succ_self _)

/-- The recursion budget of `Directory::Add` is never exhausted: any larger
budget gives the same tree. -/
theorem AddFuel_stable (fuel : Nat) (d : Directory) (subdir : String)
    (h : subdir.length < fuel) : AddFuel fuel d subdir.data = d.Add subdir := by
  rw [Add_eq_addSegments, AddFuel_eq_addSegments fuel d subdir.data h]

/-! ## Key paths of a tree -/

theorem mem_keyPathsSubdirs (subdirs : List (String × Directory)) (q : List String) :
    q ∈ keyPathsSubdirs subdirs ↔
      ∃ e ∈ subdirs, q = [e.1] ∨ ∃ q' ∈ keyPaths e.2, q = e.1 :: q' := by
  induction subdirs with
  | nil => simp [keyPathsSubdirs]
  | cons e rest ih =>
    obtain ⟨k, d⟩ := e
    rw [keyPathsSubdirs, List.mem_append, ih]
    simp only [List.mem_cons, List.mem_map, exists_eq_or_imp]
    constructor
    · rintro (h | h)
      · left
        rcases h with h | ⟨q', hq', rfl⟩
        · exact Or.inl h
        · exact Or.inr ⟨q', hq', rfl⟩
      · exact Or.inr h
    · rintro (h | h)
      · left
        rcases h with h | ⟨q', hq', rfl⟩
        · exact Or.inl h
        · exact Or.inr ⟨q', hq', rfl⟩
      · exact Or.inr h

theorem mapFind_eq_none (subdirs : List (String × Directory)) (k : String) :
    mapFind subdirs k = none ↔ ∀ e ∈ subdirs, e.1 ≠ k := by
  induction subdirs with
  | nil => simp [mapFind]
  | cons e rest ih =>
    obtain ⟨k', d⟩ := e
    rw [mapFind]
    by_cases h : k' = k
    · simp [h]
    · simp [h, ih]

theorem mem_mapSet (subdirs : List (String × Directory)) (k : String) (d : Directory)
    (habs : ∀ e ∈ subdirs, e.1 ≠ k) (e : String × Directory) :
    e ∈ mapSet subdirs k d ↔ e = (k, d) ∨ e ∈ subdirs := by
  induction subdirs with
  | nil => simp [mapSet]
  | cons e' rest ih =>
    obtain ⟨k', d'⟩ := e'
    have hk : k' ≠ k := habs (k', d') (List.mem_cons_self _ _)
    have ih' := ih (fun x hx => habs x (List.mem_cons_of_mem _ hx))
    rw [mapSet]
    by_cases hlt : k.data < k'.data
    · simp [hlt]
    · rw [if_neg hlt, if_neg hk, List.mem_cons, ih', List.mem_cons]
      tauto

theorem keyPathsSubdirs_mapSet (subdirs : List (String × Directory)) (k : String)
    (habs : ∀ e ∈ subdirs, e.1 ≠ k) (q : List String) :
    q ∈ keyPathsSubdirs (mapSet subdirs k (Directory.mk k [])) ↔
      q ∈ keyPathsSubdirs subdirs ∨ q = [k] := by
  rw [mem_keyPathsSubdirs, mem_keyPathsSubdirs]
  constructor
  · rintro ⟨e, he, h⟩
    rcases (mem_mapSet subdirs k _ habs e).mp he with rfl | he'
    · right
      simpa [keyPaths, keyPathsSubdirs] using h
    · exact Or.inl ⟨e, he', h⟩
  · rintro (⟨e, he, h⟩ | rfl)
    · exact ⟨e, (mem_mapSet subdirs k _ habs e).mpr (Or.inr he), h⟩
    · exact ⟨(k, Directory.mk k []), (mem_mapSet subdirs k _ habs _).mpr (Or.inl rfl),
        Or.inl rfl⟩

theorem keyPathsSubdirs_of_found (subdirs : List (String × Directory)) (k : String)
    (h : mapFind subdirs k ≠ none) : [k] ∈ keyPathsSubdirs subdirs := by
  rw [Ne, mapFind_eq_none] at h
  push_neg at h
  obtain ⟨e, he, rfl⟩ := h
  exact (mem_keyPathsSubdirs _ _).mpr ⟨e, he, Or.inl rfl⟩

theorem mapFind_mapSet (subdirs : List (String × Directory)) (k : String) (d : Directory) :
    mapFind (mapSet subdirs k d) k = some d := by
  induction subdirs with
  | nil => simp [mapSet, mapFind]
  | cons e' rest ih =>
    obtain ⟨k', d'⟩ := e'
    rw [mapSet]
    split
    · simp [mapFind]
    · split
      · simp [mapFind]
      · rename_i h
        simp [mapFind, h, ih]

theorem keyPathsSubdirs_mapUpdate (subdirs : List (String × Directory)) (k : String)
    (f : Directory → Directory) (P : List (List String))
    (hf : ∀ d q, q ∈ keyPaths (f d) ↔ q ∈ keyPaths d ∨ q ∈ P)
    (hfound : mapFind subdirs k ≠ none) (q : List String) :
    q ∈ keyPathsSubdirs (mapUpdate subdirs k f) ↔
      q ∈ keyPathsSubdirs subdirs ∨ ∃ q' ∈ P, q = k :: q' := by
  induction subdirs with
  | nil => simp [mapFind] at hfound
  | cons e rest ih =>
    obtain ⟨k', d⟩ := e
    rw [mapUpdate]
    by_cases hk : k' = k
    · subst hk
      rw [if_pos rfl, keyPathsSubdirs, keyPathsSubdirs]
      simp only [List.mem_append, List.mem_cons, List.mem_map, hf]
      constructor
      · rintro ((h | ⟨q', hq' | hq', rfl⟩) | h)
        · exact Or.inl (Or.inl (Or.inl h))
        · exact Or.inl (Or.inl (Or.inr ⟨q', hq', rfl⟩))
        · exact Or.inr ⟨q', hq', rfl⟩
        · exact Or.inl (Or.inr h)
      · rintro (((h | ⟨q', hq', rfl⟩) | h) | ⟨q', hq', rfl⟩)
        · exact Or.inl (Or.inl h)
        · exact Or.inl (Or.inr ⟨q', Or.inl hq', rfl⟩)
        · exact Or.inr h
        · exact Or.inl (Or.inr ⟨q', Or.inr hq', rfl⟩)
    · rw [if_neg hk, keyPathsSubdirs, keyPathsSubdirs]
      have hfound' : mapFind rest k ≠ none := by
        rw [mapFind, if_neg hk] at hfound
        exact hfound
      simp only [List.mem_append, ih hfound']
      tauto

theorem inits_tail_cons (s : String) (rest : List String) :
    (s :: rest).inits.tail = [s] :: (rest.inits.tail).map (s :: ·) := by
  cases rest with
  | nil => simp
  | cons a l => simp [List.inits_cons]

theorem addSegments_single (n : String) (subs : List (String × Directory)) (s : String) :
    addSegments (Directory.mk n subs) [s] =
      Directory.mk n
        (if (mapFind subs s).isNone then mapSet subs s (Directory.mk s []) else subs) := by
  rw [addSegments]; rfl

theorem addSegments_cons_cons (n : String) (subs : List (String × Directory))
    (s r : String) (rs : List String) :
    addSegments (Directory.mk n subs) (s :: r :: rs) =
      Directory.mk n
        (mapUpdate (if (mapFind subs s).isNone then mapSet subs s (Directory.mk s []) else subs)
          s (fun e => addSegments e (r :: rs))) := by
  rw [addSegments]; rfl

theorem keyPaths_addSegments :
    ∀ (segs : List String) (d : Directory) (q : List String),
      q ∈ keyPaths (addSegments d segs) ↔ q ∈ keyPaths d ∨ q ∈ segs.inits.tail
  | [], d, q => by simp [addSegments]
  | s :: rest, Directory.mk n subs, q => by
    have hsub : ∀ q, q ∈ keyPathsSubdirs
        (if (mapFind subs s).isNone then mapSet subs s (Directory.mk s []) else subs) ↔
        q ∈ keyPathsSubdirs subs ∨ q = [s] := by
      intro q
      by_cases hf : mapFind subs s = none
      · simp only [hf, Option.isNone_none, if_true]
        exact keyPathsSubdirs_mapSet subs s ((mapFind_eq_none _ _).mp hf) q
      · have : (mapFind subs s).isNone = false := by
          cases h : mapFind subs s with
          | none => exact absurd h hf
          | some _ => rfl
        simp only [this, Bool.false_eq_true, if_false]
        constructor
        · exact Or.inl
        · rintro (h | rfl)
          · exact h
          · exact keyPathsSubdirs_of_found subs s hf
    have hfound : mapFind
        (if (mapFind subs s).isNone then mapSet subs s (Directory.mk s []) else subs) s ≠ none := by
      by_cases hf : mapFind subs s = none
      · simp [hf, mapFind_mapSet]
      · have : (mapFind subs s).isNone = false := by
          cases h : mapFind subs s with
          | none => exact absurd h hf
          | some _ => rfl
        simpa [this] using hf
    rw [inits_tail_cons]
    cases rest with
    | nil =>
      rw [addSegments_single, keyPaths, keyPaths, hsub]
      simp
    | cons r rs =>
      rw [addSegments_cons_cons, keyPaths, keyPaths]
      rw [keyPathsSubdirs_mapUpdate _ s _ ((r :: rs).inits.tail)
        (fun d q => keyPaths_addSegments (r :: rs) d q) hfound, hsub]
      simp only [List.mem_cons, List.mem_map]
      constructor
      · rintro ((h | h) | ⟨q', hq', rfl⟩)
        · exact Or.inl h
        · exact Or.inr (Or.inl h)
        · exact Or.inr (Or.inr ⟨q', hq', rfl⟩)
      · rintro (h | h | ⟨q', hq', rfl⟩)
        · exact Or.inl (Or.inl h)
        · exact Or.inl (Or.inr h)
        · exact Or.inr ⟨q', hq', rfl⟩

/-! ## Unique keys are preserved and make the key paths distinct -/

theorem UniqueKeysSubdirs_mapSet (subdirs : List (String × Directory)) (k : String)
    (d : Directory) (habs : ∀ e ∈ subdirs, e.1 ≠ k) (hd : UniqueKeys d)
    (h : UniqueKeysSubdirs subdirs) : UniqueKeysSubdirs (mapSet subdirs k d) := by
  induction subdirs with
  | nil => simp [mapSet, UniqueKeysSubdirs, hd]
  | cons e' rest ih =>
    obtain ⟨k', d'⟩ := e'
    have hk : k' ≠ k := habs (k', d') (List.mem_cons_self _ _)
    have habs' : ∀ e ∈ rest, e.1 ≠ k := fun x hx => habs x (List.mem_cons_of_mem _ hx)
    rw [mapSet]
    by_cases hlt : k.data < k'.data
    · rw [if_pos hlt, UniqueKeysSubdirs]
      exact ⟨habs, hd, h⟩
    · rw [if_neg hlt, if_neg hk, UniqueKeysSubdirs]
      rw [UniqueKeysSubdirs] at h
      refine ⟨?_, h.2.1, ih habs' h.2.2⟩
      intro e he
      rcases (mem_mapSet rest k d habs' e).mp he with rfl | he'
      · exact fun hc => hk hc.symm
      · exact h.1 e he'

theorem mem_mapUpdate_key (subdirs : List (String × Directory)) (k : String)
    (f : Directory → Directory) (e : String × Directory) (he : e ∈ mapUpdate subdirs k f) :
    ∃ e' ∈ subdirs, e'.1 = e.1 := by
  induction subdirs with
  | nil => simp [mapUpdate] at he
  | cons e' rest ih =>
    obtain ⟨k', d'⟩ := e'
    rw [mapUpdate] at he
    by_cases hk : k' = k
    · rw [if_pos hk, List.mem_cons] at he
      rcases he with rfl | he
      · exact ⟨(k', d'), List.mem_cons_self _ _, rfl⟩
      · exact ⟨e, List.mem_cons_of_mem _ he, rfl⟩
    · rw [if_neg hk, List.mem_cons] at he
      rcases he with rfl | he
      · exact ⟨(k', d'), List.mem_cons_self _ _, rfl⟩
      · obtain ⟨e'', h1, h2⟩ := ih he
        exact ⟨e'', List.mem_cons_of_mem _ h1, h2⟩

theorem UniqueKeysSubdirs_mapUpdate (subdirs : List (String × Directory)) (k : String)
    (f : Directory → Directory) (hf : ∀ d, UniqueKeys d → UniqueKeys (f d))
    (h : UniqueKeysSubdirs subdirs) : UniqueKeysSubdirs (mapUpdate subdirs k f) := by
  induction subdirs with
  | nil => simpa [mapUpdate] using h
  | cons e' rest ih =>
    obtain ⟨k', d'⟩ := e'
    rw [UniqueKeysSubdirs] at h
    rw [mapUpdate]
    by_cases hk : k' = k
    · rw [if_pos hk, UniqueKeysSubdirs]
      exact ⟨h.1, hf d' h.2.1, h.2.2⟩
    · rw [if_neg hk, UniqueKeysSubdirs]
      refine ⟨?_, h.2.1, ih h.2.2⟩
      intro e he
      obtain ⟨e'', h1, h2⟩ := mem_mapUpdate_key rest k f e he
      rw [← h2]
      exact h.1 e'' h1

theorem UniqueKeys_leaf (s : String) : UniqueKeys (Directory.mk s []) := by
  simp [UniqueKeys, UniqueKeysSubdirs]

theorem UniqueKeysSubdirs_ensure (subs : List (String × Directory)) (s : String)
    (h : UniqueKeysSubdirs subs) :
    UniqueKeysSubdirs
      (if (mapFind subs s).isNone then mapSet subs s (Directory.mk s []) else subs) := by
  by_cases hf : mapFind subs s = none
  · simp only [hf, Option.isNone_none, if_true]
    exact UniqueKeysSubdirs_mapSet subs s _ ((mapFind_eq_none _ _).mp hf) (UniqueKeys_leaf s) h
  · have : (mapFind subs s).isNone = false := by
      cases h : mapFind subs s with
      | none => exact absurd h hf
      | some _ => rfl
    simpa [this] using h

theorem UniqueKeys_addSegments :
    ∀ (segs : List String) (d : Directory), UniqueKeys d → UniqueKeys (addSegments d segs)
  | [], d, h => by simpa [addSegments] using h
  | [s], Directory.mk n subs, h => by
    rw [addSegments_single, UniqueKeys]
    rw [UniqueKeys] at h
    exact UniqueKeysSubdirs_ensure subs s h
  | s :: r :: rs, Directory.mk n subs, h => by
    rw [addSegments_cons_cons, UniqueKeys]
    rw [UniqueKeys] at h
    exact UniqueKeysSubdirs_mapUpdate _ s _
      (fun d hd => UniqueKeys_addSegments (r :: rs) d hd) (UniqueKeysSubdirs_ensure subs s h)

theorem nil_not_mem_keyPathsSubdirs (subdirs : List (String × Directory)) :
    [] ∉ keyPathsSubdirs subdirs := by
  rw [mem_keyPathsSubdirs]
  rintro ⟨e, _, h | ⟨q', _, h⟩⟩ <;> simp at h

theorem nil_not_mem_keyPaths (d : Directory) : [] ∉ keyPaths d := by
  obtain ⟨n, subs⟩ := d
  rw [keyPaths]
  exact nil_not_mem_keyPathsSubdirs subs

mutual
theorem nodup_keyPaths : ∀ (d : Directory), UniqueKeys d → (keyPaths d).Nodup
  | Directory.mk _ subdirs, h => by
    rw [keyPaths]
    rw [UniqueKeys] at h
    exact nodup_keyPathsSubdirs subdirs h
theorem nodup_keyPathsSubdirs :
    ∀ (subdirs : List (String × Directory)), UniqueKeysSubdirs subdirs →
      (keyPathsSubdirs subdirs).Nodup
  | [], _ => by simp [keyPathsSubdirs]
  | (k, d) :: rest, h => by
    rw [UniqueKeysSubdirs] at h
    have hd := nodup_keyPaths d h.2.1
    have hrest := nodup_keyPathsSubdirs rest h.2.2
    rw [keyPathsSubdirs, List.nodup_append]
    refine ⟨?_, hrest, ?_⟩
    · rw [List.nodup_cons]
      constructor
      · simpa using nil_not_mem_keyPaths d
      · exact hd.map (fun a b hab => by simpa using hab)
    · intro q hq1 hq2
      obtain ⟨e, he, hq⟩ := (mem_keyPathsSubdirs rest q).mp hq2
      have hne : e.1 ≠ k := h.1 e he
      rw [List.mem_cons, List.mem_map] at hq1
      rcases hq1 with rfl | ⟨q1, _, rfl⟩
      · rcases hq with hq | ⟨q', _, hq⟩
        · simp at hq; exact hne hq.symm
        · simp at hq; exact hne hq.1.symm
      · rcases hq with hq | ⟨q', _, hq⟩
        · simp at hq; exact hne hq.1.symm
        · simp at hq; exact hne hq.1.symm
end

mutual
theorem length_keyPaths : ∀ (d : Directory), (keyPaths d).length + 1 = nodeCount d
  | Directory.mk _ subdirs => by
    rw [keyPaths, nodeCount, length_keyPathsSubdirs subdirs]
    omega
theorem length_keyPathsSubdirs :
    ∀ (subdirs : List (String × Directory)),
      (keyPathsSubdirs subdirs).length = nodeCountSubdirs subdirs
  | [] => by simp [keyPathsSubdirs, nodeCountSubdirs]
  | (k, d) :: rest => by
    rw [keyPathsSubdirs, nodeCountSubdirs, List.length_append, List.length_cons,
      List.length_map, length_keyPaths d, length_keyPathsSubdirs rest]
end

/-! ## Trees built by a sequence of insertions -/

theorem foldl_Add_invariant (paths : List String) :
    ∀ (t : Directory), UniqueKeys t →
      UniqueKeys (paths.foldl Directory.Add t) ∧
      ∀ q, q ∈ keyPaths (paths.foldl Directory.Add t) ↔
        q ∈ keyPaths t ∨ q ∈ paths.flatMap (prefixesBy pathSegments) := by
  induction paths with
  | nil => intro t h; simp [h]
  | cons p ps ih =>
    intro t h
    have h1 : UniqueKeys (t.Add p) := by
      rw [Add_eq_addSegments]
      exact UniqueKeys_addSegments _ t h
    obtain ⟨hu, hm⟩ := ih (t.Add p) h1
    refine ⟨hu, fun q => ?_⟩
    rw [List.foldl_cons, hm, Add_eq_addSegments, keyPaths_addSegments, List.flatMap_cons,
      List.mem_append, prefixesBy, or_assoc]

theorem nonRootCount_foldl_Add (paths : List String) (t : Directory) (ht : UniqueKeys t)
    (hempty : t.subdirs = []) :
    nonRootCount (paths.foldl Directory.Add t) = (distinctPrefixes pathSegments paths).length := by
  obtain ⟨hu, hm⟩ := foldl_Add_invariant paths t ht
  have hk : keyPaths t = [] := by
    obtain ⟨n, subs⟩ := t
    simp only [Directory.subdirs] at hempty
    simp [keyPaths, hempty, keyPathsSubdirs]
  have hperm : (keyPaths (paths.foldl Directory.Add t)).Perm
      (distinctPrefixes pathSegments paths) := by
    unfold distinctPrefixes
    rw [List.perm_ext_iff_of_nodup (nodup_keyPaths _ hu) (List.nodup_dedup _)]
    intro q
    rw [hm, hk, List.mem_dedup]
    simp
  rw [← hperm.length_eq, nonRootCount]
  generalize paths.foldl Directory.Add t = r
  obtain ⟨n, subs⟩ := r
  rw [keyPaths, Directory.subdirs, length_keyPathsSubdirs]

theorem name_addSegments : ∀ (segs : List String) (d : Directory),
    (addSegments d segs).name = d.name
  | [], _ => rfl
  | [_], Directory.mk _ _ => by rw [addSegments_single]; rfl
  | _ :: _ :: _, Directory.mk _ _ => by rw [addSegments_cons_cons]; rfl

theorem name_foldl_Add (paths : List String) :
    ∀ (t : Directory), (paths.foldl Directory.Add t).name = t.name := by
  induction paths with
  | nil => intro t; rfl
  | cons p ps ih =>
    intro t
    rw [List.foldl_cons, ih, Add_eq_addSegments, name_addSegments]

theorem pathSegments_eq_splitPath (p : List Char) :
    pathSegments p = splitPath (dropTrailingSep p) := by
  induction p with
  | nil => rfl
  | cons c r ih =>
    cases r with
    | nil =>
      by_cases hc : isSep c = true
      · simp [pathSegments, dropTrailingSep, splitPath, hc]
      · simp [pathSegments, dropTrailingSep, splitPath, hc]
    | cons c2 r2 =>
      have hr : dropTrailingSep (c :: c2 :: r2) = c :: dropTrailingSep (c2 :: r2) := rfl
      rw [hr]
      by_cases hc : isSep c = true
      · rw [pathSegments, if_pos hc, if_neg (List.cons_ne_nil _ _), ih]
        conv_rhs => rw [splitPath, if_pos hc]
      · rw [pathSegments, if_neg hc, ih]
        conv_rhs => rw [splitPath, if_neg hc]

/-! ## Re-insertion -/

theorem mapUpdate_eq_self (subdirs : List (String × Directory)) (k : String)
    (f : Directory → Directory) (e : Directory) (hfind : mapFind subdirs k = some e)
    (hf : f e = e) : mapUpdate subdirs k f = subdirs := by
  induction subdirs with
  | nil => rfl
  | cons x rest ih =>
    obtain ⟨k', d⟩ := x
    rw [mapFind] at hfind
    rw [mapUpdate]
    by_cases hk : k' = k
    · rw [if_pos hk] at hfind
      rw [if_pos hk]
      cases hfind
      rw [hf]
    · rw [if_neg hk] at hfind
      rw [if_neg hk, ih hfind]

theorem mapFind_mapUpdate (subdirs : List (String × Directory)) (k : String)
    (f : Directory → Directory) :
    mapFind (mapUpdate subdirs k f) k = (mapFind subdirs k).map f := by
  induction subdirs with
  | nil => rfl
  | cons x rest ih =>
    obtain ⟨k', d⟩ := x
    rw [mapUpdate]
    by_cases hk : k' = k
    · simp [hk, mapFind]
    · simp [hk, mapFind, ih]

theorem mapFind_ensure (subs : List (String × Directory)) (s : String) :
    ∃ e, mapFind
      (if (mapFind subs s).isNone then mapSet subs s (Directory.mk s []) else subs) s = some e := by
  cases hf : mapFind subs s with
  | none => exact ⟨Directory.mk s [], by simp [mapFind_mapSet]⟩
  | some e => exact ⟨e, by simp [hf]⟩

theorem addSegments_of_containsChain :
    ∀ (segs : List String) (d : Directory), containsChain d segs = true →
      addSegments d segs = d
  | [], _, _ => rfl
  | [s], Directory.mk n subs, h => by
    rw [addSegments_single]
    rw [containsChain] at h
    cases hf : mapFind subs s with
    | none => simp [Directory.subdirs, hf] at h
    | some e => simp
  | s :: r :: rs, Directory.mk n subs, h => by
    rw [addSegments_cons_cons]
    rw [containsChain] at h
    cases hf : mapFind subs s with
    | none => simp [Directory.subdirs, hf] at h
    | some e =>
      simp only [Directory.subdirs, hf] at h
      have := addSegments_of_containsChain (r :: rs) e h
      simp only [Option.isNone_some, Bool.false_eq_true, if_false]
      rw [mapUpdate_eq_self subs s _ e hf this]

theorem containsChain_addSegments :
    ∀ (segs : List String) (d : Directory), containsChain (addSegments d segs) segs = true
  | [], _ => rfl
  | [s], Directory.mk n subs => by
    rw [addSegments_single, containsChain]
    obtain ⟨e, he⟩ := mapFind_ensure subs s
    simp only [Directory.subdirs, he]
    rfl
  | s :: r :: rs, Directory.mk n subs => by
    rw [addSegments_cons_cons, containsChain]
    obtain ⟨e, he⟩ := mapFind_ensure subs s
    simp only [Directory.subdirs, mapFind_mapUpdate, he, Option.map_some']
    exact containsChain_addSegments (r :: rs) e

/-- The node chain of a path: its segments as `Directory::Add` reads them. -/
theorem containsChain_Add (t : Directory) (p : String) :
    containsChain (t.Add p) ((pathSegments p.data).map String.mk) = true := by
  rw [Add_eq_addSegments]
  exact containsChain_addSegments _ t

/-! ## Claims about the directory tree -/

theorem UniqueKeys_backendRoot (out : Bool) : UniqueKeys (backendRoot out) := by
  cases out <;> simp [backendRoot, UniqueKeys, UniqueKeysSubdirs]

theorem name_backendRoot_ne (out : Bool) : (backendRoot out).name ≠ "" := by
  cases out <;> decide

/-- C1, as the claim states it, fails for a path that ends in a separator:
inserting `"a/"` emits one creation rule (for `a`), while splitting `"a/"` on
the separators gives the segment `a` and an empty segment, hence two distinct
prefixes. -/
theorem creation_rule_count_trailing_separator :
    CreateRule '/' (["a/"].foldl Directory.Add (backendRoot false)) "" =
        renderRules [("$(INTERMEDIATE)/a", "$(INTERMEDIATE)")] ∧
      (creationRules '/' (["a/"].foldl Directory.Add (backendRoot false))).length = 1 ∧
      (distinctPrefixes splitPath ["a/"]).length = 2 := by
  decide

/-- C1 (amended): for every sequence of paths inserted with `Directory::Add`
into a tree rooted as the backend creates it, the text emitted by `CreateRule`
on the root with an empty ancestor path is the text of a list of creation
rules whose length is the number of distinct path prefixes across the inserted
paths, the segments of a path being read as `Directory::Add` reads them
(`pathSegments`: split on `/` and `\\`, a separator that ends the path starting
no further segment). -/
theorem creation_rule_count (CSEP : Char) (out : Bool) (paths : List String) :
    CreateRule CSEP (paths.foldl Directory.Add (backendRoot out)) "" =
        renderRules (creationRules CSEP (paths.foldl Directory.Add (backendRoot out))) ∧
      (creationRules CSEP (paths.foldl Directory.Add (backendRoot out))).length =
        (distinctPrefixes pathSegments paths).length ∧
      distinctPrefixes pathSegments paths =
        distinctPrefixes (fun p => splitPath (dropTrailingSep p)) paths := by
  refine ⟨?_, ?_, ?_⟩
  · apply CreateRule_root
    rw [name_foldl_Add]
    exact name_backendRoot_ne out
  · rw [creationRules, length_rulesOfSubdirs,
      ← nonRootCount_foldl_Add paths (backendRoot out) (UniqueKeys_backendRoot out)
        (by cases out <;> rfl)]
    rfl
  · have : pathSegments = fun p => splitPath (dropTrailingSep p) :=
      funext pathSegments_eq_splitPath
    rw [this]

/-- C2: inserting a path with `Directory::Add` into a tree that already
contains the node chain of the path leaves the tree unchanged, and with it the
output of `CreateRule`; in particular a tree into which the path has just been
inserted is left unchanged by inserting the path a second time. -/
theorem Add_idempotent (t : Directory) (p : String) :
    (containsChain t ((pathSegments p.data).map String.mk) = true →
        t.Add p = t ∧
          ∀ (CSEP : Char) (parent : String),
            CreateRule CSEP (t.Add p) parent = CreateRule CSEP t parent) ∧
      (t.Add p).Add p = t.Add p ∧
      ∀ (CSEP : Char) (parent : String),
        CreateRule CSEP ((t.Add p).Add p) parent = CreateRule CSEP (t.Add p) parent := by
  have key : ∀ u : Directory,
      containsChain u ((pathSegments p.data).map String.mk) = true → u.Add p = u := by
    intro u hu
    rw [Add_eq_addSegments]
    exact addSegments_of_containsChain _ u hu
  have h2 : (t.Add p).Add p = t.Add p := key _ (containsChain_Add t p)
  refine ⟨fun h => ⟨key t h, fun CSEP parent => by rw [key t h]⟩, h2, ?_⟩
  intro CSEP parent
  rw [h2]

theorem Add_idempotent_witness :
    containsChain (Directory.mk "$(OUTPUT)" [("a", Directory.mk "a" [("b", Directory.mk "b" [])])])
        ((pathSegments "a/b".data).map String.mk) = true ∧
      (Directory.mk "$(OUTPUT)" [("a", Directory.mk "a" [("b", Directory.mk "b" [])])]).Add "a/b"
        = Directory.mk "$(OUTPUT)" [("a", Directory.mk "a" [("b", Directory.mk "b" [])])] :=
  ⟨by decide,
    ((Add_idempotent
      (Directory.mk "$(OUTPUT)" [("a", Directory.mk "a" [("b", Directory.mk "b" [])])])
      "a/b").1 (by decide)).1⟩

/-- C8, as the claim states it, fails for a root with the empty name: the
child `a` of such a root is a non-root node, yet `CreateRule` emits no rule for
it (its parent path is empty, which is how the function recognises the root),
and the rule of the grandchild `b` has the prerequisite `a`. -/
theorem CreateRule_empty_root_name :
    CreateRule '/' (Directory.mk "" [("a", Directory.mk "a" [("b", Directory.mk "b" [])])]) "" =
        renderRules [("a/b", "a")] ∧
      nonRootCount (Directory.mk "" [("a", Directory.mk "a" [("b", Directory.mk "b" [])])]) = 2 := by
  decide

/-- C8 (amended): for every Directory tree whose root name is not empty,
`CreateRule` on the root with an empty ancestor path emits no rule for the root
and, for every node below the root, exactly one rule whose target is the
accumulated path of the node (parent path, separator, node name) and whose
only prerequisite is the accumulated path of its parent, followed by the two
tab-indented creation commands; the rules number as many as the nodes below
the root. -/
theorem CreateRule_rules (CSEP : Char) (root : Directory) (h : root.name ≠ "") :
    CreateRule CSEP root "" = renderRules (creationRules CSEP root) ∧
      (creationRules CSEP root).length = nonRootCount root :=
  ⟨CreateRule_root CSEP root h, length_rulesOfSubdirs CSEP _ _⟩

theorem CreateRule_rules_witness :
    CreateRule '/' (((backendRoot true).Add "a/b").Add "a/c") "" =
      renderRules [("$(OUTPUT)/a", "$(OUTPUT)"), ("$(OUTPUT)/a/b", "$(OUTPUT)/a"),
        ("$(OUTPUT)/a/c", "$(OUTPUT)/a")] :=
  (CreateRule_rules '/' (((backendRoot true).Add "a/b").Add "a/c") (by decide)).1.trans
    (by decide)

/-! ## Flags and properties -/

theorem GenerateIfs_append (a b : List If) :
    GenerateIfs (a ++ b) = GenerateIfs a ++ GenerateIfs b := by
  induction a with
  | nil => simp [GenerateIfs]
  | cons x rest ih => simp [GenerateIfs, ih, String.append_assoc]

theorem GenerateIf_empty (property value : String) :
    GenerateIf (If.mk property value (IfableData.mk [] [] [] [])) = "" := by
  simp [GenerateIf, IfableData.defines, IfableData.includes, IfableData.ifs]

/-- C3, as the claim states it, fails: a block whose nested FlagSet holds
nothing but one empty block is recursively empty, yet it is emitted as a guard
and its `endif`, because the backend keeps every block that has a nested
block. -/
theorem recursively_empty_block_emitted :
    recursivelyEmptyIf (If.mk "P" "v" (IfableData.mk [] [] []
        [If.mk "Q" "w" (IfableData.mk [] [] [] [])])) = true ∧
      GenerateGlobalCFlagsAndProperties "=" (IfableData.mk [] [] []
        [If.mk "P" "v" (IfableData.mk [] [] [] [If.mk "Q" "w" (IfableData.mk [] [] [] [])])])
        = "ifeq (\"$(P)\",\"v\")\nendif\n\n" ∧
      GenerateGlobalCFlagsAndProperties "=" (IfableData.mk [] [] [] []) = "" := by
  decide

/-- C3 (amended): for every FlagSet that has, in its list of blocks, a block
whose nested FlagSet has no properties, no includes, no defines and no nested
block at all, the output of `GenerateGlobalCFlagsAndProperties` is the same
text as on the FlagSet with that block removed. -/
theorem empty_block_omitted (assignmentOperation : String) (includes : List Include)
    (defines : List Define) (properties : List Property) (before after : List If)
    (property value : String) :
    GenerateGlobalCFlagsAndProperties assignmentOperation
        (IfableData.mk includes defines properties
          (before ++ If.mk property value (IfableData.mk [] [] [] []) :: after)) =
      GenerateGlobalCFlagsAndProperties assignmentOperation
        (IfableData.mk includes defines properties (before ++ after)) := by
  rw [GenerateGlobalCFlagsAndProperties, GenerateGlobalCFlagsAndProperties,
    GenerateIfs_append, GenerateIfs_append, GenerateIfs, GenerateIf_empty]
  simp [GenerateProjectCFlagsMacro, IfableData.includes, IfableData.defines]

theorem operatorAtDepth_succ (depth : Nat) : operatorAtDepth (depth + 1) = "+=" := by
  simp [operatorAtDepth]

mutual
theorem GenerateGlobalCFlagsAndProperties_eq_emitAtDepth :
    ∀ (data : IfableData) (depth : Nat),
      GenerateGlobalCFlagsAndProperties (operatorAtDepth depth) data = emitAtDepth depth data
  | IfableData.mk includes defines properties ifs, depth => by
    rw [GenerateGlobalCFlagsAndProperties, emitAtDepth, GenerateIfs_eq_emitIfsAtDepth ifs depth]
theorem GenerateIf_eq_emitIfAtDepth :
    ∀ (b : If) (depth : Nat), GenerateIf b = emitIfAtDepth depth b
  | If.mk property value data, depth => by
    rw [GenerateIf, emitIfAtDepth,
      ← GenerateGlobalCFlagsAndProperties_eq_emitAtDepth data (depth + 1),
      operatorAtDepth_succ]
theorem GenerateIfs_eq_emitIfsAtDepth :
    ∀ (ifs : List If) (depth : Nat), GenerateIfs ifs = emitIfsAtDepth depth ifs
  | [], _ => by rw [GenerateIfs, emitIfsAtDepth]
  | b :: rest, depth => by
    rw [GenerateIfs, emitIfsAtDepth, GenerateIf_eq_emitIfAtDepth b depth,
      GenerateIfs_eq_emitIfsAtDepth rest depth]
end

/-- C4: the text `GenerateGlobalVariables` emits for the root FlagSet is the
emission in which every `PROJECT_CFLAGS` line takes its operator from the
nesting depth of its FlagSet: `=` for the top-level FlagSet (depth 0) and `+=`
for a FlagSet inside a conditional block, at every depth. -/
theorem assignment_operator_by_depth (ProjectNode : Project) :
    GenerateGlobalVariables ProjectNode =
        emitAtDepth 0 ProjectNode.non_if_data
          ++ "PROJECT_RCFLAGS = $(PROJECT_CFLAGS)\n"
          ++ ("PROJECT_LFLAGS = " ++ GenerateProjectLFLAGS ProjectNode ++ "\n")
          ++ "\n" ∧
      operatorAtDepth 0 = "=" ∧
      (∀ depth : Nat, operatorAtDepth (depth + 1) = "+=") ∧
      ∀ (op : String) (data : IfableData),
        GenerateProjectCFlagsMacro op data =
          ("PROJECT_CFLAGS " ++ op) ++ includeFlags data.includes
            ++ defineFlags data.defines ++ "\n" := by
  refine ⟨?_, rfl, operatorAtDepth_succ, fun _ _ => rfl⟩
  rw [GenerateGlobalVariables, ← GenerateGlobalCFlagsAndProperties_eq_emitAtDepth]
  rfl

/-- C7, as the claim states it, fails: the output is not the four lines and
nothing else, the `endif` is followed by an empty line. -/
theorem example_output_not_four_lines :
    GenerateGlobalCFlagsAndProperties "="
        (IfableData.mk [] [⟨"FOO", ""⟩] []
          [If.mk "ARCH" "x86" (IfableData.mk [] [⟨"BAR", "1"⟩] [] [])]) ≠
      "PROJECT_CFLAGS = -DFOO\nifeq (\"$(ARCH)\",\"x86\")\nPROJECT_CFLAGS += -DBAR=1\nendif\n" := by
  decide

/-- C7 (amended): for the FlagSet with the single define `FOO` without value
and one block on `ARCH` with value `x86` holding the single define `BAR` with
value `1`, the output with operator `=` is the four lines
`PROJECT_CFLAGS = -DFOO`, `ifeq ("$(ARCH)","x86")`, `PROJECT_CFLAGS += -DBAR=1`,
`endif`, in that order, followed by one empty line, and nothing else. -/
theorem example_output :
    GenerateGlobalCFlagsAndProperties "="
        (IfableData.mk [] [⟨"FOO", ""⟩] []
          [If.mk "ARCH" "x86" (IfableData.mk [] [⟨"BAR", "1"⟩] [] [])]) =
      "PROJECT_CFLAGS = -DFOO\nifeq (\"$(ARCH)\",\"x86\")\nPROJECT_CFLAGS += -DBAR=1\nendif\n\n" := by
  decide

/-! ## Linker flags -/

theorem lflagsLoop_nonempty (flags : List LinkerFlag) :
    ∀ (lflags : String), lflags.length > 0 →
      lflagsLoop flags lflags = String.intercalate.go lflags " " (flags.map (·.flag)) := by
  induction flags with
  | nil => intro lflags _; rfl
  | cons f rest ih =>
    intro lflags h
    rw [lflagsLoop, if_pos h, List.map_cons, String.intercalate.go]
    apply ih
    rw [String.length_append, String.length_append]
    omega

theorem lflagsLoop_empty (flags : List LinkerFlag) :
    lflagsLoop flags "" =
      " ".intercalate ((flags.map (·.flag)).dropWhile (fun flag => flag = "")) := by
  induction flags with
  | nil => rfl
  | cons f rest ih =>
    rw [lflagsLoop, List.map_cons, List.dropWhile_cons]
    by_cases hf : f.flag = ""
    · simp only [hf, decide_True, if_true]
      rw [← ih]
      rfl
    · simp only [hf, decide_False, Bool.false_eq_true, if_false]
      have hlen : ("" ++ f.flag).length > 0 := by
        rw [String.length_append]
        have : f.flag.length ≠ 0 := fun h0 => hf (String.ext (List.length_eq_zero.mp h0))
        omega
      have h0 : (if ("" : String).length > 0 then "" ++ " " else "") = "" := rfl
      rw [h0, lflagsLoop_nonempty rest _ hlen, String.intercalate]
      simp

/-- C9, as the claim states it, fails for a list that starts with an empty
flag: the flags `""`, `"a"` give `"a"`, while joining them with a single space
gives `" a"`. -/
theorem linker_flags_leading_empty :
    GenerateProjectLFLAGS
        { modules := [], non_if_data := IfableData.mk [] [] [] [],
          linkerFlags := [⟨""⟩, ⟨"a"⟩], xmlbuildfiles := [], makefile := "",
          projectFilename := "" } = "a" ∧
      " ".intercalate ["", "a"] = " a" := by
  decide

/-- C9 (amended): for every list of linker flags, the string returned by
`GenerateProjectLFLAGS` is the flags in declaration order joined with a single
space between each adjacent pair, the empty flags at the head of the list left
out (a separator is written only once the string is not empty); and
`GenerateGlobalVariables` emits it as `PROJECT_LFLAGS = <that string>`. -/
theorem linker_flags_joined (ProjectNode : Project) :
    GenerateProjectLFLAGS ProjectNode =
        " ".intercalate
          ((ProjectNode.linkerFlags.map (·.flag)).dropWhile (fun flag => flag = "")) ∧
      GenerateGlobalVariables ProjectNode =
        GenerateGlobalCFlagsAndProperties "=" ProjectNode.non_if_data
          ++ "PROJECT_RCFLAGS = $(PROJECT_CFLAGS)\n"
          ++ ("PROJECT_LFLAGS = " ++ " ".intercalate
                ((ProjectNode.linkerFlags.map (·.flag)).dropWhile (fun flag => flag = ""))
              ++ "\n")
          ++ "\n" := by
  have h := lflagsLoop_empty ProjectNode.linkerFlags
  refine ⟨h, ?_⟩
  rw [GenerateGlobalVariables, GenerateProjectLFLAGS, h]

/-! ## The "all" rule -/

theorem allTargetLoop_eq_listEntries (GetTargetMacro : Module → String)
    (handlers : List MingwModuleHandler) :
    ∀ (wrap_count : Nat),
      allTargetLoop GetTargetMacro handlers wrap_count =
        listEntries
          (((handlers.map (·.module)).filter IncludeInAllTarget).map GetTargetMacro)
          wrap_count := by
  induction handlers with
  | nil => intro _; rfl
  | cons h rest ih =>
    intro wrap_count
    rw [allTargetLoop, List.map_cons, List.filter_cons]
    by_cases hin : IncludeInAllTarget h.module = true
    · rw [if_pos hin, if_pos hin, List.map_cons, listEntries, ih]
    · rw [if_neg hin, if_neg hin, ih]

theorem IncludeInAllTarget_iff (module : Module) :
    IncludeInAllTarget module = true ↔
      module.type ≠ ModuleType.ObjectLibrary ∧ module.type ≠ ModuleType.BootSector ∧
        module.type ≠ ModuleType.Iso := by
  unfold IncludeInAllTarget
  by_cases h1 : module.type = ModuleType.ObjectLibrary
  · simp [h1]
  · by_cases h2 : module.type = ModuleType.BootSector
    · simp [h2]
    · by_cases h3 : module.type = ModuleType.Iso
      · simp [h3]
      · simp [h1, h2, h3]

/-- C6: the entries of the "all" rule are the target macros of exactly the
modules whose type is none of ObjectLibrary, BootSector and Iso, each once and
in declared order: the rule is the text of the entry list of those modules,
and the other modules leave no trace in it, wherever they stand.  A module of
type Program followed by one of type ObjectLibrary gives a rule that lists only
the target of the first. -/
theorem all_target_entries (GetTargetMacro : Module → String)
    (handlers : List MingwModuleHandler) :
    GenerateAllTarget GetTargetMacro handlers =
        "all:"
          ++ listEntries
              (((handlers.map (·.module)).filter
                  (fun m => decide (m.type ≠ ModuleType.ObjectLibrary ∧
                    m.type ≠ ModuleType.BootSector ∧ m.type ≠ ModuleType.Iso))).map
                GetTargetMacro) 0
          ++ "\n\t\n\n" ∧
      ∀ (n1 n2 : String) (h1 h2 : HostType),
        GenerateAllTarget GetTargetMacro
            [⟨⟨n1, ModuleType.Program, h1⟩⟩, ⟨⟨n2, ModuleType.ObjectLibrary, h2⟩⟩] =
          "all:" ++ (" " ++ GetTargetMacro ⟨n1, ModuleType.Program, h1⟩) ++ "\n\t\n\n" := by
  have hfilter : (fun m : Module => decide (m.type ≠ ModuleType.ObjectLibrary ∧
      m.type ≠ ModuleType.BootSector ∧ m.type ≠ ModuleType.Iso)) = IncludeInAllTarget := by
    funext m
    by_cases h : IncludeInAllTarget m = true
    · rw [h]; exact decide_eq_true ((IncludeInAllTarget_iff m).mp h)
    · rw [Bool.not_eq_true] at h
      rw [h]
      exact decide_eq_false (fun hc => by
        rw [(IncludeInAllTarget_iff m).mpr hc] at h
        exact Bool.noConfusion h)
  refine ⟨?_, ?_⟩
  · rw [GenerateAllTarget, allTargetLoop_eq_listEntries, hfilter]
  · intro n1 n2 h1 h2
    simp [GenerateAllTarget, allTargetLoop, IncludeInAllTarget]

/-- C10, evaluated on eleven modules of an included type: the first line of
the rule holds five entries and the second line holds six; no continuation is
started after the tenth entry. -/
theorem all_target_eleven_modules :
    GenerateAllTarget (fun m => m.name)
        [⟨⟨"m1", ModuleType.Program, HostType.HostFalse⟩⟩,
         ⟨⟨"m2", ModuleType.Program, HostType.HostFalse⟩⟩,
         ⟨⟨"m3", ModuleType.Program, HostType.HostFalse⟩⟩,
         ⟨⟨"m4", ModuleType.Program, HostType.HostFalse⟩⟩,
         ⟨⟨"m5", ModuleType.Program, HostType.HostFalse⟩⟩,
         ⟨⟨"m6", ModuleType.Program, HostType.HostFalse⟩⟩,
         ⟨⟨"m7", ModuleType.Program, HostType.HostFalse⟩⟩,
         ⟨⟨"m8", ModuleType.Program, HostType.HostFalse⟩⟩,
         ⟨⟨"m9", ModuleType.Program, HostType.HostFalse⟩⟩,
         ⟨⟨"m10", ModuleType.Program, HostType.HostFalse⟩⟩,
         ⟨⟨"m11", ModuleType.Program, HostType.HostFalse⟩⟩] =
      "all: m1 m2 m3 m4 m5 \\\n\t\t m6 m7 m8 m9 m10 m11\n\t\n\n" := by
  decide

/-! ## The generation pipeline -/

theorem instantiateHandlers_calls (DefaultHost : Module → HostType) (modules : List Module) :
    ∀ (i : Nat), ((instantiateHandlers DefaultHost i modules).1.filter Call.isMacroPhase) = [] := by
  induction modules with
  | nil => intro i; rfl
  | cons m rest ih =>
    intro i
    rw [instantiateHandlers]
    by_cases hm : m.host = HostType.HostDefault
    · by_cases hd : DefaultHost m = HostType.HostDefault
      · simp [hm, hd, Call.isMacroPhase]
      · simp [hm, hd, Call.isMacroPhase, ih]
    · simp [hm, Call.isMacroPhase, ih]

theorem instantiateHandlers_length (DefaultHost : Module → HostType) (modules : List Module) :
    ∀ (i : Nat), (instantiateHandlers DefaultHost i modules).2.1.length = modules.length := by
  induction modules with
  | nil => intro i; rfl
  | cons m rest ih =>
    intro i
    rw [instantiateHandlers]
    by_cases hm : m.host = HostType.HostDefault
    · by_cases hd : DefaultHost m = HostType.HostDefault
      · simp [hm, hd]
      · simp [hm, hd, ih]
    · simp [hm, ih]

theorem filter_isMacroPhase_moduleRules (l : List Nat) :
    (l.flatMap moduleRules).filter Call.isMacroPhase = [] := by
  induction l with
  | nil => rfl
  | cons i rest ih =>
    rw [List.flatMap_cons, List.filter_append, ih]
    rfl

theorem filter_isMacroPhase_object (l : List Nat) :
    (l.map Call.GenerateObjectMacro).filter Call.isMacroPhase =
      l.map Call.GenerateObjectMacro := by
  induction l with
  | nil => rfl
  | cons i rest ih => simp [Call.isMacroPhase]

theorem filter_isMacroPhase_target (l : List Nat) :
    (l.map Call.GenerateTargetMacro).filter Call.isMacroPhase =
      l.map Call.GenerateTargetMacro := by
  induction l with
  | nil => rfl
  | cons i rest ih => simp [Call.isMacroPhase]

theorem filter_isMacroPhase_other (l : List Nat) :
    (l.map Call.GenerateOtherMacros).filter Call.isMacroPhase = [] := by
  induction l with
  | nil => rfl
  | cons i rest ih => simp [Call.isMacroPhase]

/-- C5: in the sequence of calls of a run of `MingwBackend::Process`, the
calls of the two macro phases are, when the run completes, the
`GenerateObjectMacro` calls of all modules in declared order followed by the
`GenerateTargetMacro` calls of all modules in declared order, so every object
macro call precedes every target macro call; a run that ends early makes none
of these calls. -/
theorem macro_phases_in_order (env : Environment) (ProjectNode : Project) :
    (Process env ProjectNode).calls.filter Call.isMacroPhase =
      if (Process env ProjectNode).outcome = Outcome.completed then
        (List.range ProjectNode.modules.length).map Call.GenerateObjectMacro
          ++ (List.range ProjectNode.modules.length).map Call.GenerateTargetMacro
      else [] := by
  unfold Process
  by_cases hopen : env.canOpenMakefile = true
  · simp only [hopen, if_true]
    by_cases hok : (instantiateHandlers env.DefaultHost 0 ProjectNode.modules).2.2 = true
    · simp only [hok, if_true, List.filter_append, instantiateHandlers_calls,
        instantiateHandlers_length, filter_isMacroPhase_moduleRules,
        filter_isMacroPhase_object, filter_isMacroPhase_target, filter_isMacroPhase_other]
      simp [Call.isMacroPhase]
    · simp only [hok, Bool.false_eq_true, if_false, List.filter_append,
        instantiateHandlers_calls]
      simp [Call.isMacroPhase]
  · simp only [hopen, Bool.false_eq_true, if_false]
    simp [Call.isMacroPhase]

/-! ## The list of build files -/

theorem xmlBuildFilesLoop_eq_lines (NormalizeFilename : String → String) (size : Nat)
    (files : List XMLInclude) :
    ∀ (i count : Nat) (pending : List String), files.length ≤ size →
      xmlBuildFilesLoop NormalizeFilename size files i (2 * count)
          (pending.foldl appendFilename "") =
        renderXmlLines (xmlLines NormalizeFilename size files i count pending) := by
  induction files with
  | nil => intro i count pending _; rfl
  | cons file rest ih =>
    intro i count pending hlen
    have hsize : 1 ≤ size := by
      simp only [List.length_cons] at hlen
      omega
    have hrest : rest.length ≤ size := by
      simp only [List.length_cons] at hlen
      omega
    have hlast : (i = size - 1) ↔ (i + 1 = size) := by omega
    have hmod : ((2 * count + 1) % 5 = 4) ↔ ((count + 1) % 5 = 0) := by omega
    have hnext : 2 * count + 1 + 1 = 2 * (count + 1) := by omega
    have hbuf : appendFilename (pending.foldl appendFilename "")
        (NormalizeFilename file.topIncludeFilename) =
        (pending ++ [NormalizeFilename file.topIncludeFilename]).foldl appendFilename "" := by
      rw [List.foldl_append]
      rfl
    rw [xmlBuildFilesLoop, xmlLines]
    by_cases hex : file.fileExists = true
    · simp only [hex, Bool.not_true, Bool.false_eq_true, if_false, if_true, hlast, hmod, hnext,
        hbuf]
      by_cases hclose : (count + 1) % 5 = 0 ∨ i + 1 = size
      · rw [if_pos hclose, if_pos hclose, renderXmlLines, renderXmlLine]
        have := ih (i + 1) (count + 1) [] hrest
        simp only [List.foldl_nil] at this
        rw [this]
        by_cases hfin : i + 1 = size
        · simp [hfin]
        · simp [hfin]
      · rw [if_neg hclose, if_neg hclose]
        exact ih (i + 1) (count + 1) _ hrest
    · rw [Bool.not_eq_true] at hex
      simp only [hex, Bool.not_false, if_true, Bool.false_eq_true, if_false]
      exact ih (i + 1) count pending hrest

theorem xmlLines_length_le (NormalizeFilename : String → String) (size : Nat)
    (files : List XMLInclude) :
    ∀ (i count : Nat) (pending : List String), pending.length ≤ count % 5 →
      ∀ line ∈ xmlLines NormalizeFilename size files i count pending, line.1.length ≤ 5 := by
  induction files with
  | nil => intro i count pending _ line hline; simp [xmlLines] at hline
  | cons file rest ih =>
    intro i count pending hp line hline
    rw [xmlLines] at hline
    have hlt : count % 5 < 5 := Nat.mod_lt _ (by decide)
    by_cases hex : file.fileExists = true
    · rw [if_pos hex] at hline
      by_cases hclose : (count + 1) % 5 = 0 ∨ i + 1 = size
      · rw [if_pos hclose, List.mem_cons] at hline
        rcases hline with rfl | hline
        · simp only [List.length_append, List.length_singleton]
          omega
        · exact ih (i + 1) (count + 1) [] (by simp) line hline
      · rw [if_neg hclose] at hline
        refine ih (i + 1) (count + 1) _ ?_ line hline
        simp only [List.length_append, List.length_singleton]
        have : (count + 1) % 5 ≠ 0 := fun h => hclose (Or.inl h)
        omega
    · rw [if_neg hex] at hline
      exact ih (i + 1) count pending hp line hline

theorem xmlLines_all_exist (NormalizeFilename : String → String) (size : Nat)
    (names : List String) :
    ∀ (i : Nat) (pending : List String),
      xmlLines NormalizeFilename size (names.map (fun n => ⟨n, true⟩)) i i pending =
        xmlLinesByPosition NormalizeFilename size names i pending := by
  induction names with
  | nil => intro i pending; rfl
  | cons n rest ih =>
    intro i pending
    rw [List.map_cons, xmlLines, xmlLinesByPosition]
    simp only [if_true]
    by_cases hclose : (i + 1) % 5 = 0 ∨ i + 1 = size
    · rw [if_pos hclose, if_pos hclose, ih]
    · rw [if_neg hclose, if_neg hclose, ih]

/-- C11: the XMLBUILDFILES macro is the text of the lines in which the
current line is closed after an existing file exactly when the 1-based count
of that file among the existing files is a multiple of 5 or the file is the
final entry of the list; every closed line holds at most 5 file names; and
when every file exists, the entry at 1-based position k closes its line
exactly when k is a multiple of 5 or the last position. -/
theorem xml_build_files_wrap (NormalizeFilename : String → String) (ProjectNode : Project) :
    GenerateXmlBuildFilesMacro NormalizeFilename ProjectNode =
        ("XMLBUILDFILES = " ++ ProjectNode.projectFilename ++ " \\\n")
          ++ renderXmlLines
              (xmlLines NormalizeFilename ProjectNode.xmlbuildfiles.length
                ProjectNode.xmlbuildfiles 0 0 [])
          ++ "\n" ∧
      (∀ line ∈ xmlLines NormalizeFilename ProjectNode.xmlbuildfiles.length
          ProjectNode.xmlbuildfiles 0 0 [], line.1.length ≤ 5) ∧
      ∀ names : List String,
        xmlLines NormalizeFilename names.length (names.map (fun n => ⟨n, true⟩)) 0 0 [] =
          xmlLinesByPosition NormalizeFilename names.length names 0 [] := by
  refine ⟨?_, ?_, fun names => xmlLines_all_exist NormalizeFilename _ names 0 []⟩
  · rw [GenerateXmlBuildFilesMacro]
    have := xmlBuildFilesLoop_eq_lines NormalizeFilename ProjectNode.xmlbuildfiles.length
      ProjectNode.xmlbuildfiles 0 0 [] (Nat.le_refl _)
    simp only [Nat.mul_zero, List.foldl_nil] at this
    rw [this]
  · exact xmlLines_length_le NormalizeFilename _ _ 0 0 [] (by simp)

/-- C20, evaluated on a list whose final entry does not exist: the name of the
existing file `a.xml` is gathered but never written, the macro holds the
project file name only. -/
theorem xml_build_files_last_missing :
    GenerateXmlBuildFilesMacro (fun name => name)
        { modules := [], non_if_data := IfableData.mk [] [] [] [], linkerFlags := [],
          xmlbuildfiles := [⟨"a.xml", true⟩, ⟨"b.xml", false⟩], makefile := "",
          projectFilename := "proj.xml" } =
      "XMLBUILDFILES = proj.xml \\\n\n" := by
  decide

/-! ## Blocks that hold properties only -/

/-- C12, evaluated on a FlagSet whose only block holds one property and
nothing else: nothing is emitted, neither the guard nor the assignment of the
property; the same block with a define added is emitted with the assignment
of the property. -/
theorem property_only_block_dropped :
    GenerateGlobalCFlagsAndProperties "="
        (IfableData.mk [] [] []
          [If.mk "ARCH" "x86" (IfableData.mk [] [] [⟨"P", "1"⟩] [])]) = "" ∧
      GenerateGlobalCFlagsAndProperties "="
        (IfableData.mk [] [] []
          [If.mk "ARCH" "x86" (IfableData.mk [] [⟨"D", ""⟩] [⟨"P", "1"⟩] [])]) =
        "ifeq (\"$(ARCH)\",\"x86\")\nP := 1\nPROJECT_CFLAGS += -DD\nendif\n\n" := by
  decide

/-! ## Directory targets -/

/-- C14: the output of `GenerateDirectoryTargets` is the creation rules of the
intermediate tree, then the line `ifneq ($(INTERMEDIATE),$(OUTPUT))`, then the
creation rules of the output tree, then the line `endif`; for the trees the
backend builds these are the rendered rule lists of the two trees. -/
theorem directory_targets_guard (CSEP : Char) (int_directories out_directories : Directory) :
    GenerateDirectoryTargets CSEP int_directories out_directories =
        CreateRule CSEP int_directories ""
          ++ "ifneq ($(INTERMEDIATE),$(OUTPUT))\n"
          ++ CreateRule CSEP out_directories ""
          ++ "endif\n" ∧
      ∀ (intPaths outPaths : List String),
        GenerateDirectoryTargets CSEP (intPaths.foldl Directory.Add (backendRoot false))
            (outPaths.foldl Directory.Add (backendRoot true)) =
          renderRules (creationRules CSEP (intPaths.foldl Directory.Add (backendRoot false)))
            ++ "ifneq ($(INTERMEDIATE),$(OUTPUT))\n"
            ++ renderRules (creationRules CSEP (outPaths.foldl Directory.Add (backendRoot true)))
            ++ "endif\n" := by
  have h : ∀ a b : Directory, GenerateDirectoryTargets CSEP a b =
      CreateRule CSEP a "" ++ "ifneq ($(INTERMEDIATE),$(OUTPUT))\n" ++ CreateRule CSEP b ""
        ++ "endif\n" := by
    intro a b
    simp [GenerateDirectoryTargets, directoryTargetsBody, String.append_assoc]
  refine ⟨h _ _, fun intPaths outPaths => ?_⟩
  rw [h, CreateRule_root CSEP _ (by rw [name_foldl_Add]; exact name_backendRoot_ne false),
    CreateRule_root CSEP _ (by rw [name_foldl_Add]; exact name_backendRoot_ne true)]

/-! ## The remaining phases -/

theorem instantiateHandlers_calls_instantiation (DefaultHost : Module → HostType)
    (modules : List Module) :
    ∀ (i : Nat), ∀ c ∈ (instantiateHandlers DefaultHost i modules).1,
      c.isInstantiation = true := by
  induction modules with
  | nil => intro i c hc; simp [instantiateHandlers] at hc
  | cons m rest ih =>
    intro i c hc
    rw [instantiateHandlers] at hc
    by_cases hm : m.host = HostType.HostDefault
    · by_cases hd : DefaultHost m = HostType.HostDefault
      · simp only [hm, hd, if_true, ne_eq, not_true_eq_false, if_false, List.mem_cons,
          List.mem_singleton, List.not_mem_nil, or_false] at hc
        rcases hc with rfl | rfl <;> rfl
      · simp only [hm, hd, if_true, ne_eq, not_false_eq_true, List.mem_cons] at hc
        rcases hc with rfl | rfl | hc
        · rfl
        · rfl
        · exact ih (i + 1) c hc
    · simp only [hm, if_false, List.mem_cons] at hc
      rcases hc with rfl | hc
      · rfl
      · exact ih (i + 1) c hc

theorem filter_eq_nil_of_isInstantiation (l : List Call) (p : Call → Bool)
    (hl : ∀ c ∈ l, c.isInstantiation = true)
    (hp : ∀ c : Call, c.isInstantiation = true → p c = false) : l.filter p = [] := by
  rw [List.filter_eq_nil_iff]
  intro c hc
  rw [hp c (hl c hc)]
  exact Bool.false_ne_true

theorem isRemainingPhase_of_isInstantiation (c : Call) (h : c.isInstantiation = true) :
    c.isRemainingPhase = false := by
  cases c <;> first | rfl | exact Bool.noConfusion h

theorem isGenerationPhase_of_isInstantiation (c : Call) (h : c.isInstantiation = true) :
    c.isGenerationPhase = false := by
  cases c <;> first | rfl | exact Bool.noConfusion h

theorem filter_isRemainingPhase_moduleRules (l : List Nat) :
    (l.flatMap moduleRules).filter Call.isRemainingPhase = l.flatMap moduleRules := by
  induction l with
  | nil => rfl
  | cons i rest ih =>
    rw [List.flatMap_cons, List.filter_append, ih]
    rfl

theorem filter_isRemainingPhase_other (l : List Nat) :
    (l.map Call.GenerateOtherMacros).filter Call.isRemainingPhase =
      l.map Call.GenerateOtherMacros := by
  induction l with
  | nil => rfl
  | cons i rest ih => simp [Call.isRemainingPhase]

theorem filter_isRemainingPhase_object (l : List Nat) :
    (l.map Call.GenerateObjectMacro).filter Call.isRemainingPhase = [] := by
  induction l with
  | nil => rfl
  | cons i rest ih => simp [Call.isRemainingPhase]

theorem filter_isRemainingPhase_target (l : List Nat) :
    (l.map Call.GenerateTargetMacro).filter Call.isRemainingPhase = [] := by
  induction l with
  | nil => rfl
  | cons i rest ih => simp [Call.isRemainingPhase]

/-- C13, as the claim states it, fails for a project of two modules: the
`GenerateOtherMacros` call of the second module comes before the
`GeneratePreconditionDependencies` call of the first, so the five calls of a
module are not consecutive. -/
theorem remaining_phases_two_modules :
    (Process { canOpenMakefile := true, DefaultHost := fun _ => HostType.HostFalse }
        { modules := [⟨"m0", ModuleType.Program, HostType.HostFalse⟩,
            ⟨"m1", ModuleType.Program, HostType.HostFalse⟩],
          non_if_data := IfableData.mk [] [] [] [], linkerFlags := [], xmlbuildfiles := [],
          makefile := "", projectFilename := "" }).calls.filter Call.isRemainingPhase =
      [Call.GenerateOtherMacros 0, Call.GenerateOtherMacros 1,
        Call.GeneratePreconditionDependencies 0, Call.Process 0, Call.GenerateInvocations 0,
        Call.GenerateCleanTarget 0, Call.Delete 0,
        Call.GeneratePreconditionDependencies 1, Call.Process 1, Call.GenerateInvocations 1,
        Call.GenerateCleanTarget 1, Call.Delete 1] := by
  decide

/-- C13 (amended): in the calls of a run of `MingwBackend::Process` after the
aggregate targets, the `GenerateOtherMacros` calls of all modules come first,
in declared order; then the four remaining calls of each module
(`GeneratePreconditionDependencies`, `Process`, `GenerateInvocations`,
`GenerateCleanTarget`) occur consecutively in that order, followed by the
release of the generator of that module, all of them before any of the four
calls of the next module in declared order.  A run that ends early makes none
of these calls. -/
theorem remaining_phases_in_order (env : Environment) (ProjectNode : Project) :
    (Process env ProjectNode).calls.filter Call.isRemainingPhase =
      if (Process env ProjectNode).outcome = Outcome.completed then
        (List.range ProjectNode.modules.length).map Call.GenerateOtherMacros
          ++ (List.range ProjectNode.modules.length).flatMap
              (fun i => [Call.GeneratePreconditionDependencies i, Call.Process i,
                Call.GenerateInvocations i, Call.GenerateCleanTarget i, Call.Delete i])
      else [] := by
  have hinst := filter_eq_nil_of_isInstantiation
    (instantiateHandlers env.DefaultHost 0 ProjectNode.modules).1 Call.isRemainingPhase
    (instantiateHandlers_calls_instantiation env.DefaultHost ProjectNode.modules 0)
    isRemainingPhase_of_isInstantiation
  unfold Process
  by_cases hopen : env.canOpenMakefile = true
  · simp only [hopen, if_true]
    by_cases hok : (instantiateHandlers env.DefaultHost 0 ProjectNode.modules).2.2 = true
    · simp only [hok, if_true, List.filter_append, hinst,
        instantiateHandlers_length, filter_isRemainingPhase_moduleRules,
        filter_isRemainingPhase_object, filter_isRemainingPhase_target,
        filter_isRemainingPhase_other]
      simp [Call.isRemainingPhase]
      rfl
    · simp only [hok, Bool.false_eq_true, if_false, List.filter_append, hinst]
      simp [Call.isRemainingPhase]
  · simp only [hopen, Bool.false_eq_true, if_false]
    simp [Call.isRemainingPhase]

/-! ## Host resolution -/

theorem instantiateHandlers_fails_iff (DefaultHost : Module → HostType)
    (modules : List Module) :
    ∀ (i : Nat), (instantiateHandlers DefaultHost i modules).2.2 = false ↔
      ∃ m ∈ modules, m.host = HostType.HostDefault ∧ DefaultHost m = HostType.HostDefault := by
  induction modules with
  | nil => intro i; simp [instantiateHandlers]
  | cons m rest ih =>
    intro i
    rw [instantiateHandlers]
    by_cases hm : m.host = HostType.HostDefault
    · by_cases hd : DefaultHost m = HostType.HostDefault
      · simp only [hm, hd, if_true, ne_eq, not_true_eq_false, if_false, true_iff]
        exact ⟨m, List.mem_cons_self _ _, hm, hd⟩
      · simp only [hm, hd, if_true, ne_eq, not_false_eq_true, ih (i + 1), List.mem_cons,
          exists_eq_or_imp, and_false, false_or]
    · simp only [hm, if_false, ih (i + 1), List.mem_cons, exists_eq_or_imp, false_and,
        false_or]

theorem instantiateHandlers_modules (DefaultHost : Module → HostType)
    (modules : List Module) :
    ∀ (i : Nat), (instantiateHandlers DefaultHost i modules).2.2 = true →
      (instantiateHandlers DefaultHost i modules).2.1 = modules.map (resolveHost DefaultHost) ∧
        ∀ m ∈ (instantiateHandlers DefaultHost i modules).2.1,
          m.host ≠ HostType.HostDefault := by
  induction modules with
  | nil => intro i _; simp [instantiateHandlers]
  | cons m rest ih =>
    intro i hok
    rw [instantiateHandlers] at hok ⊢
    by_cases hm : m.host = HostType.HostDefault
    · by_cases hd : DefaultHost m = HostType.HostDefault
      · simp [hm, hd] at hok
      · simp only [hm, hd, if_true, ne_eq, not_false_eq_true] at hok ⊢
        obtain ⟨h1, h2⟩ := ih (i + 1) hok
        refine ⟨?_, ?_⟩
        · rw [h1, List.map_cons, resolveHost, if_pos hm]
        · intro x hx
          rw [List.mem_cons] at hx
          rcases hx with rfl | hx
          · exact hd
          · exact h2 x hx
    · simp only [hm, if_false] at hok ⊢
      obtain ⟨h1, h2⟩ := ih (i + 1) hok
      refine ⟨?_, ?_⟩
      · rw [h1, List.map_cons, resolveHost, if_neg hm]
      · intro x hx
        rw [List.mem_cons] at hx
        rcases hx with rfl | hx
        · exact hm
        · exact h2 x hx

theorem not_mem_dropWhile_of_forall (l post : List Call) (p : Call → Bool)
    (hl : ∀ c ∈ l, p c = true) : (l ++ post).dropWhile p = post.dropWhile p := by
  induction l with
  | nil => rfl
  | cons a rest ih =>
    rw [List.cons_append, List.dropWhile_cons, if_pos (hl a (List.mem_cons_self _ _))]
    exact ih (fun c hc => hl c (List.mem_cons_of_mem _ hc))

theorem generation_calls_not_instantiation (n : Nat) :
    ∀ c ∈ (List.range n).map Call.GenerateObjectMacro
        ++ (List.range n).map Call.GenerateTargetMacro
        ++ [Call.GenerateAllTarget, Call.GenerateInitTarget]
        ++ (List.range n).map Call.GenerateOtherMacros
        ++ (List.range n).flatMap moduleRules
        ++ [Call.GenerateDirectoryTargets, Call.CheckAutomaticDependencies,
            Call.CloseMakefile],
      c.isInstantiation = false := by
  intro c hc
  simp only [List.mem_append, List.mem_map, List.mem_flatMap, List.mem_cons,
    List.mem_singleton, List.not_mem_nil, or_false, moduleRules] at hc
  rcases hc with ((((⟨_, _, rfl⟩ | ⟨_, _, rfl⟩) | (rfl | rfl)) | ⟨_, _, rfl⟩) |
    ⟨_, _, (rfl | rfl | rfl | rfl | rfl)⟩) | (rfl | rfl | rfl) <;> rfl

/-- C15: the module-instantiation loop of `MingwBackend::Process` fails
exactly when some module with the unset host `HostDefault` has a rule
generator whose `DefaultHost ()` is `HostDefault`; otherwise it completes,
every module then has a host different from `HostDefault`, a module whose host
was set keeps it and a module whose host was unset has the `DefaultHost ()` of
its generator.  A run whose makefile opens fails on its assertion exactly when
the loop fails, a run that does not complete makes no call of a generation
phase, and no call of the instantiation loop follows the first call of a
generation phase. -/
theorem host_resolution (env : Environment) (ProjectNode : Project) :
    ((instantiateHandlers env.DefaultHost 0 ProjectNode.modules).2.2 = false ↔
        ∃ m ∈ ProjectNode.modules,
          m.host = HostType.HostDefault ∧ env.DefaultHost m = HostType.HostDefault) ∧
      ((instantiateHandlers env.DefaultHost 0 ProjectNode.modules).2.2 = true →
        (instantiateHandlers env.DefaultHost 0 ProjectNode.modules).2.1 =
            ProjectNode.modules.map (resolveHost env.DefaultHost) ∧
          ∀ m ∈ (instantiateHandlers env.DefaultHost 0 ProjectNode.modules).2.1,
            m.host ≠ HostType.HostDefault) ∧
      ((Process env ProjectNode).outcome = Outcome.assertionFailed ↔
        env.canOpenMakefile = true ∧
          (instantiateHandlers env.DefaultHost 0 ProjectNode.modules).2.2 = false) ∧
      ((Process env ProjectNode).outcome ≠ Outcome.completed →
        ∀ c ∈ (Process env ProjectNode).calls, c.isGenerationPhase = false) ∧
      ∀ c ∈ (Process env ProjectNode).calls.dropWhile (fun c => !c.isGenerationPhase),
        c.isInstantiation = false := by
  have hinst := instantiateHandlers_calls_instantiation env.DefaultHost ProjectNode.modules 0
  refine ⟨instantiateHandlers_fails_iff _ _ 0, instantiateHandlers_modules _ _ 0, ?_, ?_, ?_⟩
  · unfold Process
    by_cases hopen : env.canOpenMakefile = true
    · by_cases hok : (instantiateHandlers env.DefaultHost 0 ProjectNode.modules).2.2 = true
      · simp [hopen, hok]
      · simp [hopen, hok]
    · simp [hopen]
  · unfold Process
    by_cases hopen : env.canOpenMakefile = true
    · by_cases hok : (instantiateHandlers env.DefaultHost 0 ProjectNode.modules).2.2 = true
      · simp [hopen, hok]
      · simp only [hopen, if_true, hok, Bool.false_eq_true, if_false]
        intro _ c hc
        rw [List.mem_append] at hc
        rcases hc with hc | hc
        · simp only [List.mem_cons, List.mem_singleton, List.not_mem_nil, or_false] at hc
          rcases hc with rfl | rfl | rfl | rfl | rfl <;> rfl
        · exact isGenerationPhase_of_isInstantiation c (hinst c hc)
    · simp only [hopen, Bool.false_eq_true, if_false]
      intro _ c hc
      simp only [List.mem_cons, List.mem_singleton, List.not_mem_nil, or_false] at hc
      rcases hc with rfl | rfl <;> rfl
  · unfold Process
    by_cases hopen : env.canOpenMakefile = true
    · by_cases hok : (instantiateHandlers env.DefaultHost 0 ProjectNode.modules).2.2 = true
      · simp only [hopen, if_true, hok]
        intro c hc
        have hpre : ∀ c ∈ [Call.DetectPCHSupport, Call.CreateMakefile, Call.GenerateHeader,
            Call.GenerateGlobalVariables, Call.GenerateXmlBuildFilesMacro]
            ++ (instantiateHandlers env.DefaultHost 0 ProjectNode.modules).1,
            (fun c : Call => !c.isGenerationPhase) c = true := by
          intro c hc
          rw [List.mem_append] at hc
          rcases hc with hc | hc
          · simp only [List.mem_cons, List.mem_singleton, List.not_mem_nil, or_false] at hc
            rcases hc with rfl | rfl | rfl | rfl | rfl <;> rfl
          · simp [isGenerationPhase_of_isInstantiation c (hinst c hc)]
        simp only [List.append_assoc] at hc hpre
        rw [← List.append_assoc, not_mem_dropWhile_of_forall _ _ _
          (by simpa only [List.append_assoc] using hpre)] at hc
        have hmem := (List.dropWhile_sublist _).subset hc
        apply generation_calls_not_instantiation
          (instantiateHandlers env.DefaultHost 0 ProjectNode.modules).2.1.length c
        simpa only [List.append_assoc] using hmem
      · simp only [hopen, if_true, hok, Bool.false_eq_true, if_false]
        intro c hc
        have hall : ∀ c ∈ [Call.DetectPCHSupport, Call.CreateMakefile, Call.GenerateHeader,
            Call.GenerateGlobalVariables, Call.GenerateXmlBuildFilesMacro]
            ++ (instantiateHandlers env.DefaultHost 0 ProjectNode.modules).1,
            (fun c : Call => !c.isGenerationPhase) c = true := by
          intro c hc
          rw [List.mem_append] at hc
          rcases hc with hc | hc
          · simp only [List.mem_cons, List.mem_singleton, List.not_mem_nil, or_false] at hc
            rcases hc with rfl | rfl | rfl | rfl | rfl <;> rfl
          · simp [isGenerationPhase_of_isInstantiation c (hinst c hc)]
        have := not_mem_dropWhile_of_forall _ [] _ hall
        rw [List.append_nil] at this
        rw [this] at hc
        simp at hc
    · simp only [hopen, Bool.false_eq_true, if_false]
      intro c hc
      simp [Call.isGenerationPhase] at hc

/-! ## The project after a run -/

theorem map_resolveHost_of_set (DefaultHost : Module → HostType) (modules : List Module)
    (h : ∀ m ∈ modules, m.host ≠ HostType.HostDefault) :
    modules.map (resolveHost DefaultHost) = modules := by
  induction modules with
  | nil => rfl
  | cons m rest ih =>
    rw [List.map_cons, resolveHost, if_neg (h m (List.mem_cons_self _ _)),
      ih (fun x hx => h x (List.mem_cons_of_mem _ hx))]

theorem Process_modules_completed (env : Environment) (ProjectNode : Project)
    (h : (Process env ProjectNode).outcome = Outcome.completed) :
    (Process env ProjectNode).modules = ProjectNode.modules.map (resolveHost env.DefaultHost) := by
  unfold Process at h ⊢
  by_cases hopen : env.canOpenMakefile = true
  · by_cases hok : (instantiateHandlers env.DefaultHost 0 ProjectNode.modules).2.2 = true
    · simp only [hopen, if_true, hok]
      exact (instantiateHandlers_modules _ _ 0 hok).1
    · simp [hopen, hok] at h
  · simp [hopen] at h

theorem Process_modules_of_set (env : Environment) (ProjectNode : Project)
    (h : ∀ m ∈ ProjectNode.modules, m.host ≠ HostType.HostDefault) :
    (Process env ProjectNode).modules = ProjectNode.modules := by
  have hok : (instantiateHandlers env.DefaultHost 0 ProjectNode.modules).2.2 = true := by
    by_contra hc
    rw [Bool.not_eq_true] at hc
    obtain ⟨m, hm, hh, _⟩ := (instantiateHandlers_fails_iff _ _ 0).mp hc
    exact h m hm hh
  unfold Process
  by_cases hopen : env.canOpenMakefile = true
  · simp only [hopen, if_true, hok]
    rw [(instantiateHandlers_modules _ _ 0 hok).1, map_resolveHost_of_set _ _ h]
  · simp [hopen]

/-- C16, as the claim states it, fails: a complete run on a project whose
module has the unset host `HostDefault` writes the `DefaultHost ()` of the
rule generator into the module, so the project after the run is not the
project before it. -/
theorem project_host_written :
    (Process { canOpenMakefile := true, DefaultHost := fun _ => HostType.HostTrue }
        { modules := [⟨"m0", ModuleType.Program, HostType.HostDefault⟩],
          non_if_data := IfableData.mk [] [] [] [], linkerFlags := [], xmlbuildfiles := [],
          makefile := "", projectFilename := "" }).outcome = Outcome.completed ∧
      (projectAfter { canOpenMakefile := true, DefaultHost := fun _ => HostType.HostTrue }
        { modules := [⟨"m0", ModuleType.Program, HostType.HostDefault⟩],
          non_if_data := IfableData.mk [] [] [] [], linkerFlags := [], xmlbuildfiles := [],
          makefile := "", projectFilename := "" }).modules ≠
        [⟨"m0", ModuleType.Program, HostType.HostDefault⟩] := by
  decide

/-- C16 (amended): a complete run of `MingwBackend::Process` leaves every
field of the Project and every field of its modules as it was, except the host
of the modules whose host was unset (`HostDefault`), which becomes the
`DefaultHost ()` of the rule generator of the module; a Project in which no
module has the unset host is equal to its value before the run. -/
theorem project_after_run (env : Environment) (ProjectNode : Project) :
    (projectAfter env ProjectNode).non_if_data = ProjectNode.non_if_data ∧
      (projectAfter env ProjectNode).linkerFlags = ProjectNode.linkerFlags ∧
      (projectAfter env ProjectNode).xmlbuildfiles = ProjectNode.xmlbuildfiles ∧
      (projectAfter env ProjectNode).makefile = ProjectNode.makefile ∧
      (projectAfter env ProjectNode).projectFilename = ProjectNode.projectFilename ∧
      ((Process env ProjectNode).outcome = Outcome.completed →
        (projectAfter env ProjectNode).modules =
          ProjectNode.modules.map (resolveHost env.DefaultHost)) ∧
      (∀ m : Module,
        (resolveHost env.DefaultHost m).name = m.name ∧
          (resolveHost env.DefaultHost m).type = m.type ∧
          (m.host ≠ HostType.HostDefault → resolveHost env.DefaultHost m = m) ∧
          (m.host = HostType.HostDefault →
            (resolveHost env.DefaultHost m).host = env.DefaultHost m)) ∧
      ((∀ m ∈ ProjectNode.modules, m.host ≠ HostType.HostDefault) →
        projectAfter env ProjectNode = ProjectNode) := by
  refine ⟨rfl, rfl, rfl, rfl, rfl, fun h => Process_modules_completed env ProjectNode h, ?_, ?_⟩
  · intro m
    by_cases hm : m.host = HostType.HostDefault
    · simp [resolveHost, hm]
    · simp [resolveHost, hm]
  · intro h
    rw [projectAfter, Process_modules_of_set env ProjectNode h]

theorem project_after_run_witness :
    projectAfter { canOpenMakefile := true, DefaultHost := fun _ => HostType.HostTrue }
        { modules := [⟨"m0", ModuleType.Program, HostType.HostFalse⟩],
          non_if_data := IfableData.mk [] [] [] [], linkerFlags := [], xmlbuildfiles := [],
          makefile := "", projectFilename := "" } =
      { modules := [⟨"m0", ModuleType.Program, HostType.HostFalse⟩],
        non_if_data := IfableData.mk [] [] [] [], linkerFlags := [], xmlbuildfiles := [],
        makefile := "", projectFilename := "" } :=
  (project_after_run _ _).2.2.2.2.2.2.2 (by decide)

/-! ## Names and keys -/

theorem mapUpdate_id (subdirs : List (String × Directory)) (k : String) :
    mapUpdate subdirs k (fun e => e) = subdirs := by
  induction subdirs with
  | nil => rfl
  | cons x rest ih =>
    obtain ⟨k', d⟩ := x
    rw [mapUpdate, ih]
    split <;> rfl

theorem addSegments_cons (n : String) (subs : List (String × Directory)) (s : String)
    (rest : List String) :
    addSegments (Directory.mk n subs) (s :: rest) =
      Directory.mk n (mapUpdate (ensureEntry subs s) s (fun e => addSegments e rest)) := by
  cases rest with
  | nil =>
    have hid : (fun e : Directory => addSegments e []) = fun e => e := by
      funext e
      cases e
      rfl
    rw [addSegments_single, hid, mapUpdate_id]
    rfl
  | cons r rs =>
    rw [addSegments_cons_cons]
    rfl

theorem mem_mapSet_imp (subdirs : List (String × Directory)) (k : String) (d : Directory)
    (e : String × Directory) (he : e ∈ mapSet subdirs k d) : e = (k, d) ∨ e ∈ subdirs := by
  induction subdirs with
  | nil => simpa [mapSet] using he
  | cons x rest ih =>
    obtain ⟨k', d'⟩ := x
    rw [mapSet] at he
    by_cases hlt : k.data < k'.data
    · rw [if_pos hlt, List.mem_cons] at he
      exact he
    · rw [if_neg hlt] at he
      by_cases hk : k' = k
      · rw [if_pos hk, List.mem_cons] at he
        rcases he with he | he
        · exact Or.inl he
        · exact Or.inr (List.mem_cons_of_mem _ he)
      · rw [if_neg hk, List.mem_cons] at he
        rcases he with he | he
        · exact Or.inr (he ▸ List.mem_cons_self _ _)
        · rcases ih he with h | h
          · exact Or.inl h
          · exact Or.inr (List.mem_cons_of_mem _ h)

theorem mem_ensureEntry_imp (subdirs : List (String × Directory)) (s : String)
    (e : String × Directory) (he : e ∈ ensureEntry subdirs s) :
    e = (s, Directory.mk s []) ∨ e ∈ subdirs := by
  unfold ensureEntry at he
  split at he
  · exact mem_mapSet_imp _ _ _ _ he
  · exact Or.inr he

theorem mem_mapUpdate_imp (subdirs : List (String × Directory)) (k : String)
    (f : Directory → Directory) (e : String × Directory) (he : e ∈ mapUpdate subdirs k f) :
    e ∈ subdirs ∨ ∃ d, (k, d) ∈ subdirs ∧ e = (k, f d) := by
  induction subdirs with
  | nil => simp [mapUpdate] at he
  | cons x rest ih =>
    obtain ⟨k', d'⟩ := x
    rw [mapUpdate] at he
    by_cases hk : k' = k
    · rw [if_pos hk, List.mem_cons] at he
      rcases he with he | he
      · subst hk
        exact Or.inr ⟨d', List.mem_cons_self _ _, he⟩
      · exact Or.inl (List.mem_cons_of_mem _ he)
    · rw [if_neg hk, List.mem_cons] at he
      rcases he with he | he
      · exact Or.inl (he ▸ List.mem_cons_self _ _)
      · rcases ih he with h | ⟨d, hd, h⟩
        · exact Or.inl (List.mem_cons_of_mem _ h)
        · exact Or.inr ⟨d, List.mem_cons_of_mem _ hd, h⟩

theorem namesMatchKeysSubdirs_iff (subdirs : List (String × Directory)) :
    namesMatchKeysSubdirs subdirs = true ↔
      ∀ e ∈ subdirs, e.2.name = e.1 ∧ namesMatchKeys e.2 = true := by
  induction subdirs with
  | nil => simp [namesMatchKeysSubdirs]
  | cons x rest ih =>
    obtain ⟨k, d⟩ := x
    rw [namesMatchKeysSubdirs]
    simp only [Bool.and_eq_true, decide_eq_true_eq, ih, List.mem_cons, forall_eq_or_imp,
      and_assoc]

theorem namesNonEmptySubdirs_iff (subdirs : List (String × Directory)) :
    namesNonEmptySubdirs subdirs = true ↔
      ∀ e ∈ subdirs, e.2.name ≠ "" ∧ namesNonEmpty e.2 = true := by
  induction subdirs with
  | nil => simp [namesNonEmptySubdirs]
  | cons x rest ih =>
    obtain ⟨k, d⟩ := x
    rw [namesNonEmptySubdirs]
    simp only [Bool.and_eq_true, decide_eq_true_eq, ih, List.mem_cons, forall_eq_or_imp,
      and_assoc]

theorem namesMatchKeys_addSegments :
    ∀ (segs : List String) (d : Directory), namesMatchKeys d = true →
      namesMatchKeys (addSegments d segs) = true
  | [], _, h => h
  | s :: rest, Directory.mk n subs, h => by
    rw [addSegments_cons, namesMatchKeys, namesMatchKeysSubdirs_iff]
    rw [namesMatchKeys, namesMatchKeysSubdirs_iff] at h
    have hens : ∀ e ∈ ensureEntry subs s, e.2.name = e.1 ∧ namesMatchKeys e.2 = true := by
      intro e he
      rcases mem_ensureEntry_imp subs s e he with rfl | he
      · exact ⟨rfl, rfl⟩
      · exact h e he
    intro e he
    rcases mem_mapUpdate_imp _ _ _ e he with he | ⟨d, hd, rfl⟩
    · exact hens e he
    · have := hens (s, d) hd
      exact ⟨by rw [name_addSegments]; exact this.1,
        namesMatchKeys_addSegments rest d this.2⟩

theorem namesNonEmpty_addSegments :
    ∀ (segs : List String) (d : Directory), (∀ s ∈ segs, s ≠ "") →
      namesNonEmpty d = true → namesNonEmpty (addSegments d segs) = true
  | [], _, _, h => h
  | s :: rest, Directory.mk n subs, hs, h => by
    rw [addSegments_cons, namesNonEmpty, namesNonEmptySubdirs_iff]
    rw [namesNonEmpty, namesNonEmptySubdirs_iff] at h
    have hens : ∀ e ∈ ensureEntry subs s, e.2.name ≠ "" ∧ namesNonEmpty e.2 = true := by
      intro e he
      rcases mem_ensureEntry_imp subs s e he with rfl | he
      · exact ⟨hs s (List.mem_cons_self _ _), rfl⟩
      · exact h e he
    intro e he
    rcases mem_mapUpdate_imp _ _ _ e he with he | ⟨d, hd, rfl⟩
    · exact hens e he
    · have := hens (s, d) hd
      exact ⟨by rw [name_addSegments]; exact this.1,
        namesNonEmpty_addSegments rest d (fun x hx => hs x (List.mem_cons_of_mem _ hx))
          this.2⟩

theorem namesMatchKeys_foldl_Add (paths : List String) :
    ∀ (t : Directory), namesMatchKeys t = true →
      namesMatchKeys (paths.foldl Directory.Add t) = true := by
  induction paths with
  | nil => intro t h; exact h
  | cons p ps ih =>
    intro t h
    rw [List.foldl_cons]
    apply ih
    rw [Add_eq_addSegments]
    exact namesMatchKeys_addSegments _ t h

theorem namesNonEmpty_foldl_Add (paths : List String)
    (hp : ∀ p ∈ paths, ∀ s ∈ (pathSegments p.data).map String.mk, s ≠ "") :
    ∀ (t : Directory), namesNonEmpty t = true →
      namesNonEmpty (paths.foldl Directory.Add t) = true := by
  induction paths with
  | nil => intro t h; exact h
  | cons p ps ih =>
    intro t h
    rw [List.foldl_cons]
    apply ih (fun q hq => hp q (List.mem_cons_of_mem _ hq))
    rw [Add_eq_addSegments]
    exact namesNonEmpty_addSegments _ t (hp p (List.mem_cons_self _ _)) h

theorem pathSegments_head_cons (c : Char) (r : List Char) (hc : isSep c = false) :
    ∃ a b, pathSegments r = a :: b ∧ pathSegments (c :: r) = (c :: a) :: b := by
  rw [pathSegments, if_neg (by simp [hc])]
  cases hseg : pathSegments r with
  | nil => exact absurd hseg (pathSegments_ne_nil _)
  | cons s0 ss => exact ⟨s0, ss, rfl, rfl⟩

theorem pathSegments_tail_ne_nil (p : List Char) :
    noAdjacentSeparators p = true → ∀ s ∈ (pathSegments p).tail, s ≠ [] := by
  induction p with
  | nil => intro _ s hs; simp [pathSegments] at hs
  | cons c r ih =>
    intro hadj s hs
    have hr : noAdjacentSeparators r = true := by
      cases r with
      | nil => rfl
      | cons d r' =>
        rw [noAdjacentSeparators, Bool.and_eq_true] at hadj
        exact hadj.2
    rw [pathSegments] at hs
    by_cases hc : isSep c = true
    · rw [if_pos hc] at hs
      cases r with
      | nil => simp at hs
      | cons d r' =>
        rw [if_neg (List.cons_ne_nil _ _), List.tail_cons] at hs
        have hd : isSep d = false := by
          rw [noAdjacentSeparators, Bool.and_eq_true] at hadj
          have := hadj.1
          simp only [hc, Bool.true_and, Bool.not_eq_true'] at this
          exact this
        obtain ⟨a, b, _, hab⟩ := pathSegments_head_cons d r' hd
        have htail : (pathSegments (d :: r')).tail = b := by rw [hab]; rfl
        rw [hab, List.mem_cons] at hs
        rcases hs with rfl | hs
        · exact List.cons_ne_nil _ _
        · exact ih hr s (htail ▸ hs)
    · rw [if_neg hc] at hs
      cases hseg : pathSegments r with
      | nil => exact absurd hseg (pathSegments_ne_nil _)
      | cons s0 ss =>
        rw [hseg] at hs
        simp only [List.tail_cons] at hs
        apply ih hr s
        rw [hseg]
        exact hs

theorem pathSegments_ne_nil_of_plainPath (p : List Char) (h : plainPath p = true) :
    ∀ s ∈ pathSegments p, s ≠ [] := by
  cases p with
  | nil => simp [plainPath] at h
  | cons c r =>
    rw [plainPath, Bool.and_eq_true] at h
    have hc : isSep c = false := by simpa using h.1
    intro s hs
    obtain ⟨a, b, _, hab⟩ := pathSegments_head_cons c r hc
    have htail : (pathSegments (c :: r)).tail = b := by rw [hab]; rfl
    rw [hab, List.mem_cons] at hs
    rcases hs with rfl | hs
    · exact List.cons_ne_nil _ _
    · exact pathSegments_tail_ne_nil _ h.2 s (htail ▸ hs)

/-- C17, as the claim states it, fails: inserting the empty string, a string
that starts with a separator, or a string with two adjacent separators creates
a node whose name is empty. -/
theorem empty_name_inserted :
    namesNonEmpty ((Directory.mk "$(OUTPUT)" []).Add "") = false ∧
      namesNonEmpty ((Directory.mk "$(OUTPUT)" []).Add "/a") = false ∧
      namesNonEmpty ((Directory.mk "$(OUTPUT)" []).Add "a//b") = false ∧
      (Directory.mk "$(OUTPUT)" []).Add "" =
        Directory.mk "$(OUTPUT)" [("", Directory.mk "" [])] :=
  ⟨by decide, by decide, by decide, by rfl⟩

/-- C17 (amended): for every sequence of path strings inserted with
`Directory::Add` into an initially childless tree, the name of each node below
the root equals the key under which its parent holds it; and every node below
the root has a non-empty name when every inserted string is a plain path: not
empty, not starting with a separator and without two adjacent separators. -/
theorem names_after_insertions (rootName : String) (paths : List String) :
    namesMatchKeys (paths.foldl Directory.Add (Directory.mk rootName [])) = true ∧
      ((∀ p ∈ paths, plainPath p.data = true) →
        namesNonEmpty (paths.foldl Directory.Add (Directory.mk rootName [])) = true) := by
  refine ⟨namesMatchKeys_foldl_Add paths _ rfl, fun h => ?_⟩
  refine namesNonEmpty_foldl_Add paths ?_ (Directory.mk rootName []) rfl
  intro p hp s hs
  rw [List.mem_map] at hs
  obtain ⟨l, hl, rfl⟩ := hs
  intro hc
  exact pathSegments_ne_nil_of_plainPath p.data (h p hp) l hl (congrArg String.data hc)

theorem names_after_insertions_witness :
    namesNonEmpty (["a/b", "a/c/"].foldl Directory.Add (Directory.mk "$(OUTPUT)" [])) = true :=
  (names_after_insertions "$(OUTPUT)" ["a/b", "a/c/"]).2 (by decide)

/-! ## Insertion order -/

theorem mapFind_mapSet_ne (subdirs : List (String × Directory)) (k k' : String)
    (d : Directory) (h : k ≠ k') : mapFind (mapSet subdirs k d) k' = mapFind subdirs k' := by
  induction subdirs with
  | nil => simp [mapSet, mapFind, h]
  | cons x rest ih =>
    obtain ⟨k0, d0⟩ := x
    rw [mapSet]
    by_cases hlt : k.data < k0.data
    · rw [if_pos hlt, mapFind, if_neg h]
    · rw [if_neg hlt]
      by_cases hk : k0 = k
      · subst hk
        rw [if_pos rfl, mapFind, mapFind, if_neg h, if_neg h]
      · rw [if_neg hk, mapFind, mapFind, ih]

theorem mapFind_mapUpdate_ne (subdirs : List (String × Directory)) (k k' : String)
    (f : Directory → Directory) (h : k ≠ k') :
    mapFind (mapUpdate subdirs k f) k' = mapFind subdirs k' := by
  induction subdirs with
  | nil => rfl
  | cons x rest ih =>
    obtain ⟨k0, d0⟩ := x
    rw [mapUpdate]
    by_cases hk : k0 = k
    · subst hk
      rw [if_pos rfl, mapFind, mapFind, if_neg h, if_neg h]
    · rw [if_neg hk, mapFind, mapFind, ih]

theorem mapUpdate_mapUpdate (subdirs : List (String × Directory)) (k : String)
    (f g : Directory → Directory) :
    mapUpdate (mapUpdate subdirs k f) k g = mapUpdate subdirs k (fun e => g (f e)) := by
  induction subdirs with
  | nil => rfl
  | cons x rest ih =>
    obtain ⟨k0, d0⟩ := x
    by_cases hk : k0 = k
    · simp [mapUpdate, hk]
    · simp [mapUpdate, hk, ih]

theorem mapUpdate_comm (subdirs : List (String × Directory)) (k k' : String)
    (f g : Directory → Directory) (h : k ≠ k') :
    mapUpdate (mapUpdate subdirs k f) k' g = mapUpdate (mapUpdate subdirs k' g) k f := by
  induction subdirs with
  | nil => rfl
  | cons x rest ih =>
    obtain ⟨k0, d0⟩ := x
    by_cases hk : k0 = k
    · subst hk
      simp [mapUpdate, h]
    · by_cases hk' : k0 = k'
      · subst hk'
        simp [mapUpdate, hk]
      · simp [mapUpdate, hk, hk', ih]

theorem mapSet_mapUpdate (subdirs : List (String × Directory)) (k k' : String)
    (f : Directory → Directory) (d : Directory) (h : k ≠ k') :
    mapSet (mapUpdate subdirs k f) k' d = mapUpdate (mapSet subdirs k' d) k f := by
  induction subdirs with
  | nil => simp [mapSet, mapUpdate, Ne.symm h]
  | cons x rest ih =>
    obtain ⟨k0, d0⟩ := x
    by_cases hk : k0 = k
    · subst hk
      by_cases hlt : k'.data < k0.data
      · simp [mapSet, mapUpdate, hlt, h, Ne.symm h]
      · simp [mapSet, mapUpdate, hlt, h, Ne.symm h]
    · by_cases hlt : k'.data < k0.data
      · simp [mapSet, mapUpdate, hlt, hk, Ne.symm h]
      · by_cases hk' : k0 = k'
        · simp [mapSet, mapUpdate, hlt, hk, hk', Ne.symm h]
        · simp [mapSet, mapUpdate, hlt, hk, hk', ih]

theorem mapSet_comm (subdirs : List (String × Directory)) (k1 k2 : String)
    (d1 d2 : Directory) (h12 : k1 ≠ k2) (h1 : ∀ e ∈ subdirs, e.1 ≠ k1)
    (h2 : ∀ e ∈ subdirs, e.1 ≠ k2) :
    mapSet (mapSet subdirs k1 d1) k2 d2 = mapSet (mapSet subdirs k2 d2) k1 d1 := by
  have h21 : k2 ≠ k1 := Ne.symm h12
  have hne : k1.data ≠ k2.data := fun h => h12 (String.ext h)
  induction subdirs with
  | nil =>
    rcases lt_trichotomy k1.data k2.data with h | h | h
    · have h' : ¬ k2.data < k1.data := lt_asymm h
      simp [mapSet, h, h', h12, h21]
    · exact absurd h hne
    · have h' : ¬ k1.data < k2.data := lt_asymm h
      simp [mapSet, h, h', h12, h21]
  | cons x rest ih =>
    obtain ⟨k0, d0⟩ := x
    have h01 : k0 ≠ k1 := h1 (k0, d0) (List.mem_cons_self _ _)
    have h02 : k0 ≠ k2 := h2 (k0, d0) (List.mem_cons_self _ _)
    have ih' := ih (fun e he => h1 e (List.mem_cons_of_mem _ he))
      (fun e he => h2 e (List.mem_cons_of_mem _ he))
    by_cases a : k1.data < k0.data
    · by_cases b : k2.data < k0.data
      · rcases lt_trichotomy k1.data k2.data with h | h | h
        · have h' : ¬ k2.data < k1.data := lt_asymm h
          simp [mapSet, a, b, h, h', h12, h21, h01, h02]
        · exact absurd h hne
        · have h' : ¬ k1.data < k2.data := lt_asymm h
          simp [mapSet, a, b, h, h', h12, h21, h01, h02]
      · have h : k1.data < k2.data := by
          rcases lt_trichotomy k1.data k2.data with h | h | h
          · exact h
          · exact absurd h hne
          · exact absurd (lt_trans h a) b
        have h' : ¬ k2.data < k1.data := lt_asymm h
        simp [mapSet, a, b, h, h', h12, h21, h01, h02]
    · by_cases b : k2.data < k0.data
      · have h : k2.data < k1.data := by
          rcases lt_trichotomy k1.data k2.data with h | h | h
          · exact absurd (lt_trans h b) a
          · exact absurd h hne
          · exact h
        have h' : ¬ k1.data < k2.data := lt_asymm h
        simp [mapSet, a, b, h, h', h12, h21, h01, h02]
      · simp [mapSet, a, b, h12, h21, h01, h02, ih']

theorem mapFind_isNone_iff (subdirs : List (String × Directory)) (k : String) :
    (mapFind subdirs k).isNone = true ↔ ∀ e ∈ subdirs, e.1 ≠ k := by
  rw [Option.isNone_iff_eq_none, mapFind_eq_none]

theorem ensureEntry_of_found (subdirs : List (String × Directory)) (s : String)
    (h : (mapFind subdirs s).isNone = false) : ensureEntry subdirs s = subdirs := by
  simp [ensureEntry, h]

theorem mapFind_ensureEntry_ne (subdirs : List (String × Directory)) (s s' : String)
    (h : s ≠ s') : mapFind (ensureEntry subdirs s) s' = mapFind subdirs s' := by
  unfold ensureEntry
  split
  · exact mapFind_mapSet_ne _ _ _ _ h
  · rfl

theorem ensureEntry_comm (subdirs : List (String × Directory)) (s1 s2 : String)
    (h : s1 ≠ s2) :
    ensureEntry (ensureEntry subdirs s1) s2 = ensureEntry (ensureEntry subdirs s2) s1 := by
  have e1 := mapFind_ensureEntry_ne subdirs s1 s2 h
  have e2 := mapFind_ensureEntry_ne subdirs s2 s1 (Ne.symm h)
  by_cases a : (mapFind subdirs s1).isNone = true
  · by_cases b : (mapFind subdirs s2).isNone = true
    · have ha : (mapFind (ensureEntry subdirs s2) s1).isNone = true := by rw [e2]; exact a
      have hb : (mapFind (ensureEntry subdirs s1) s2).isNone = true := by rw [e1]; exact b
      conv_lhs => rw [ensureEntry, if_pos hb]
      conv_rhs => rw [ensureEntry, if_pos ha]
      rw [ensureEntry, ensureEntry, if_pos a, if_pos b]
      exact mapSet_comm subdirs s1 s2 _ _ h ((mapFind_isNone_iff _ _).mp a)
        ((mapFind_isNone_iff _ _).mp b)
    · rw [Bool.not_eq_true] at b
      have hb : (mapFind (ensureEntry subdirs s1) s2).isNone = false := by
        rw [e1]; exact b
      rw [ensureEntry_of_found _ s2 hb, ensureEntry_of_found subdirs s2 b]
  · rw [Bool.not_eq_true] at a
    have ha : (mapFind (ensureEntry subdirs s2) s1).isNone = false := by
      rw [e2]; exact a
    rw [ensureEntry_of_found _ s1 ha, ensureEntry_of_found subdirs s1 a]

theorem ensureEntry_mapUpdate (subdirs : List (String × Directory)) (k k' : String)
    (f : Directory → Directory) (h : k ≠ k') :
    ensureEntry (mapUpdate subdirs k f) k' = mapUpdate (ensureEntry subdirs k') k f := by
  unfold ensureEntry
  rw [mapFind_mapUpdate_ne _ _ _ _ h]
  split
  · exact mapSet_mapUpdate _ _ _ _ _ h
  · rfl

theorem ensureEntry_idem (subdirs : List (String × Directory)) (s : String)
    (f : Directory → Directory) :
    ensureEntry (mapUpdate (ensureEntry subdirs s) s f) s =
      mapUpdate (ensureEntry subdirs s) s f := by
  apply ensureEntry_of_found
  rw [mapFind_mapUpdate]
  obtain ⟨e, he⟩ := mapFind_ensure subdirs s
  have : mapFind (ensureEntry subdirs s) s = some e := he
  rw [this]
  rfl

theorem addSegments_comm :
    ∀ (segs1 segs2 : List String) (t : Directory),
      addSegments (addSegments t segs1) segs2 = addSegments (addSegments t segs2) segs1
  | [], _, t => by
    cases t
    rfl
  | _ :: _, [], t => by
    cases t
    rfl
  | s1 :: r1, s2 :: r2, Directory.mk n subs => by
    rw [addSegments_cons, addSegments_cons, addSegments_cons, addSegments_cons]
    congr 1
    by_cases h : s1 = s2
    · subst h
      rw [ensureEntry_idem, ensureEntry_idem, mapUpdate_mapUpdate, mapUpdate_mapUpdate]
      congr 1
      funext e
      exact addSegments_comm r1 r2 e
    · rw [ensureEntry_mapUpdate _ _ _ _ h, ensureEntry_mapUpdate _ _ _ _ (Ne.symm h),
        ensureEntry_comm subs s1 s2 h, mapUpdate_comm _ _ _ _ _ h]

theorem Add_comm (t : Directory) (p q : String) : (t.Add p).Add q = (t.Add q).Add p := by
  rw [Add_eq_addSegments, Add_eq_addSegments, Add_eq_addSegments, Add_eq_addSegments]
  exact addSegments_comm _ _ t

theorem containsChain_addSegments_mono :
    ∀ (segs segs' : List String) (t : Directory), containsChain t segs = true →
      containsChain (addSegments t segs') segs = true
  | [], _, _, _ => rfl
  | _ :: _, [], t, h => by
    cases t
    exact h
  | s :: rest, s' :: rest', Directory.mk n subs, h => by
    rw [containsChain] at h
    rw [addSegments_cons, containsChain]
    simp only [Directory.subdirs] at h ⊢
    cases hf : mapFind subs s with
    | none => simp [hf] at h
    | some e =>
      rw [hf] at h
      simp only at h
      by_cases hs : s' = s
      · subst hs
        have hens : ensureEntry subs s' = subs := ensureEntry_of_found subs s' (by rw [hf]; rfl)
        rw [hens, mapFind_mapUpdate, hf]
        exact containsChain_addSegments_mono rest rest' e h
      · rw [mapFind_mapUpdate_ne _ _ _ _ hs, mapFind_ensureEntry_ne _ _ _ hs, hf]
        exact h

theorem containsChain_foldl_mono (l : List String) (segs : List String) :
    ∀ (t : Directory), containsChain t segs = true →
      containsChain (l.foldl Directory.Add t) segs = true := by
  induction l with
  | nil => intro t h; exact h
  | cons x xs ih =>
    intro t h
    rw [List.foldl_cons]
    apply ih
    rw [Add_eq_addSegments]
    exact containsChain_addSegments_mono _ _ t h

theorem containsChain_foldl (l : List String) (p : String) (hp : p ∈ l) :
    ∀ (t : Directory),
      containsChain (l.foldl Directory.Add t) ((pathSegments p.data).map String.mk) = true := by
  induction l with
  | nil => simp at hp
  | cons x xs ih =>
    intro t
    rw [List.foldl_cons]
    rw [List.mem_cons] at hp
    rcases hp with rfl | hp
    · exact containsChain_foldl_mono xs _ _ (containsChain_Add t p)
    · exact ih hp _

theorem foldl_Add_perm (l1 l2 : List String) (h : l1.Perm l2) (t : Directory) :
    l1.foldl Directory.Add t = l2.foldl Directory.Add t :=
  List.Perm.foldl_eq' h (fun x _ y _ z => Add_comm z x y) t

theorem foldl_Add_cons_of_mem (l : List String) (a : String) (ha : a ∈ l) (t : Directory) :
    (a :: l).foldl Directory.Add t = l.foldl Directory.Add t := by
  have hperm : (a :: l).Perm (l ++ [a]) := (List.perm_append_singleton a l).symm
  rw [foldl_Add_perm _ _ hperm, List.foldl_append, List.foldl_cons, List.foldl_nil,
    Add_eq_addSegments]
  exact addSegments_of_containsChain _ _ (containsChain_foldl l a ha t)

theorem foldl_Add_dedup (l : List String) :
    ∀ (t : Directory), l.dedup.foldl Directory.Add t = l.foldl Directory.Add t := by
  induction l with
  | nil => intro t; rfl
  | cons a l ih =>
    intro t
    by_cases ha : a ∈ l
    · rw [List.dedup_cons_of_mem ha, ih, foldl_Add_cons_of_mem l a ha]
    · rw [List.dedup_cons_of_not_mem ha, List.foldl_cons, List.foldl_cons, ih]

theorem foldl_Add_of_same_paths (l1 l2 : List String) (h : ∀ p, p ∈ l1 ↔ p ∈ l2)
    (t : Directory) : l1.foldl Directory.Add t = l2.foldl Directory.Add t := by
  have hperm : l1.dedup.Perm l2.dedup := by
    rw [List.perm_ext_iff_of_nodup (List.nodup_dedup _) (List.nodup_dedup _)]
    intro p
    rw [List.mem_dedup, List.mem_dedup]
    exact h p
  rw [← foldl_Add_dedup l1, ← foldl_Add_dedup l2]
  exact foldl_Add_perm _ _ hperm t

/-! ## Ascending keys -/

theorem sortedKeysSubdirs_iff (subdirs : List (String × Directory)) :
    sortedKeysSubdirs subdirs = true ↔
      subdirs.Pairwise (fun a b => a.1.data < b.1.data) ∧
        ∀ e ∈ subdirs, sortedKeys e.2 = true := by
  induction subdirs with
  | nil => simp [sortedKeysSubdirs]
  | cons x rest ih =>
    obtain ⟨k, d⟩ := x
    rw [sortedKeysSubdirs]
    simp only [Bool.and_eq_true, List.all_eq_true, decide_eq_true_eq, ih, List.pairwise_cons,
      List.mem_cons, forall_eq_or_imp]
    tauto

theorem pairwise_mapUpdate (subdirs : List (String × Directory)) (k : String)
    (f : Directory → Directory)
    (h : subdirs.Pairwise (fun a b => a.1.data < b.1.data)) :
    (mapUpdate subdirs k f).Pairwise (fun a b => a.1.data < b.1.data) := by
  induction subdirs with
  | nil => exact List.Pairwise.nil
  | cons x rest ih =>
    obtain ⟨k0, d0⟩ := x
    rw [List.pairwise_cons] at h
    rw [mapUpdate]
    by_cases hk : k0 = k
    · rw [if_pos hk, List.pairwise_cons]
      exact ⟨h.1, h.2⟩
    · rw [if_neg hk, List.pairwise_cons]
      refine ⟨?_, ih h.2⟩
      intro e he
      obtain ⟨e', he', hkey⟩ := mem_mapUpdate_key rest k f e he
      rw [← hkey]
      exact h.1 e' he'

theorem pairwise_mapSet (subdirs : List (String × Directory)) (k : String) (d : Directory)
    (h : subdirs.Pairwise (fun a b => a.1.data < b.1.data)) :
    (mapSet subdirs k d).Pairwise (fun a b => a.1.data < b.1.data) := by
  induction subdirs with
  | nil => simp [mapSet]
  | cons x rest ih =>
    obtain ⟨k0, d0⟩ := x
    rw [List.pairwise_cons] at h
    rw [mapSet]
    by_cases hlt : k.data < k0.data
    · rw [if_pos hlt, List.pairwise_cons]
      refine ⟨?_, List.pairwise_cons.mpr h⟩
      intro e he
      rw [List.mem_cons] at he
      rcases he with rfl | he
      · exact hlt
      · exact lt_trans hlt (h.1 e he)
    · rw [if_neg hlt]
      by_cases hk : k0 = k
      · subst hk
        rw [if_pos rfl, List.pairwise_cons]
        exact ⟨h.1, h.2⟩
      · rw [if_neg hk, List.pairwise_cons]
        refine ⟨?_, ih h.2⟩
        intro e he
        rcases mem_mapSet_imp rest k d e he with rfl | he
        · rcases lt_trichotomy k.data k0.data with h3 | h3 | h3
          · exact absurd h3 hlt
          · exact absurd (String.ext h3).symm hk
          · exact h3
        · exact h.1 e he

theorem sortedKeys_addSegments :
    ∀ (segs : List String) (d : Directory), sortedKeys d = true →
      sortedKeys (addSegments d segs) = true
  | [], _, h => h
  | s :: rest, Directory.mk n subs, h => by
    rw [addSegments_cons, sortedKeys, sortedKeysSubdirs_iff]
    rw [sortedKeys, sortedKeysSubdirs_iff] at h
    have hens : (ensureEntry subs s).Pairwise (fun a b => a.1.data < b.1.data) ∧
        ∀ e ∈ ensureEntry subs s, sortedKeys e.2 = true := by
      refine ⟨?_, ?_⟩
      · unfold ensureEntry
        split
        · exact pairwise_mapSet _ _ _ h.1
        · exact h.1
      · intro e he
        rcases mem_ensureEntry_imp subs s e he with rfl | he
        · rfl
        · exact h.2 e he
    refine ⟨pairwise_mapUpdate _ _ _ hens.1, ?_⟩
    intro e he
    rcases mem_mapUpdate_imp _ _ _ e he with he | ⟨d, hd, rfl⟩
    · exact hens.2 e he
    · exact sortedKeys_addSegments rest d (hens.2 (s, d) hd)

theorem sortedKeys_foldl_Add (paths : List String) :
    ∀ (t : Directory), sortedKeys t = true →
      sortedKeys (paths.foldl Directory.Add t) = true := by
  induction paths with
  | nil => intro t h; exact h
  | cons p ps ih =>
    intro t h
    rw [List.foldl_cons]
    apply ih
    rw [Add_eq_addSegments]
    exact sortedKeys_addSegments _ t h

mutual
theorem siblingNamesAscending_of_sortedKeys :
    ∀ (d : Directory), sortedKeys d = true → namesMatchKeys d = true →
      siblingNamesAscending d = true
  | Directory.mk _ subdirs, hs, hn => by
    rw [siblingNamesAscending]
    rw [sortedKeys] at hs
    rw [namesMatchKeys] at hn
    exact siblingNamesAscendingSubdirs_of_sortedKeys subdirs hs hn
theorem siblingNamesAscendingSubdirs_of_sortedKeys :
    ∀ (subdirs : List (String × Directory)), sortedKeysSubdirs subdirs = true →
      namesMatchKeysSubdirs subdirs = true → siblingNamesAscendingSubdirs subdirs = true
  | [], _, _ => rfl
  | (k, d) :: rest, hs, hn => by
    rw [sortedKeysSubdirs, Bool.and_eq_true, Bool.and_eq_true] at hs
    rw [namesMatchKeysSubdirs, Bool.and_eq_true, Bool.and_eq_true] at hn
    have hrest := (namesMatchKeysSubdirs_iff rest).mp hn.2
    have hname : d.name = k := by simpa using hn.1.1
    rw [siblingNamesAscendingSubdirs, Bool.and_eq_true, Bool.and_eq_true]
    refine ⟨⟨?_, siblingNamesAscending_of_sortedKeys d hs.1.2 hn.1.2⟩,
      siblingNamesAscendingSubdirs_of_sortedKeys rest hs.2 hn.2⟩
    rw [List.all_eq_true]
    intro e he
    have hlt := (List.all_eq_true.mp hs.1.1) e he
    rw [hname, (hrest e he).1]
    exact hlt
end

theorem CreateRuleSubdirs_in_order (CSEP : Char) (subdirs : List (String × Directory))
    (path : String) :
    CreateRuleSubdirs CSEP subdirs path =
      (subdirs.map (fun e => CreateRule CSEP e.2 path)).foldr (· ++ ·) "" := by
  induction subdirs with
  | nil => rfl
  | cons x rest ih =>
    obtain ⟨k, d⟩ := x
    rw [CreateRuleSubdirs, ih]
    rfl

/-- C18: inserting two paths with `Directory::Add` in either order yields the
same tree, so the tree and the output of `CreateRule` depend only on the set
of inserted paths, not on order or repetition; in a tree built by insertions
into a childless tree the keys of every map ascend, every node is named as its
key, and `CreateRule` emits the rules of sibling directories in the order of
the list, which is the ascending order of their names. -/
theorem Add_order_independent (t : Directory) :
    (∀ p q : String, (t.Add p).Add q = (t.Add q).Add p) ∧
      (∀ l1 l2 : List String, (∀ p, p ∈ l1 ↔ p ∈ l2) →
        l1.foldl Directory.Add t = l2.foldl Directory.Add t ∧
          ∀ (CSEP : Char) (parent : String),
            CreateRule CSEP (l1.foldl Directory.Add t) parent =
              CreateRule CSEP (l2.foldl Directory.Add t) parent) ∧
      (∀ (rootName : String) (paths : List String),
        sortedKeys (paths.foldl Directory.Add (Directory.mk rootName [])) = true ∧
          siblingNamesAscending (paths.foldl Directory.Add (Directory.mk rootName [])) = true) ∧
      ∀ (CSEP : Char) (subdirs : List (String × Directory)) (path : String),
        CreateRuleSubdirs CSEP subdirs path =
          (subdirs.map (fun e => CreateRule CSEP e.2 path)).foldr (· ++ ·) "" := by
  refine ⟨Add_comm t, ?_, ?_, CreateRuleSubdirs_in_order⟩
  · intro l1 l2 h
    have heq := foldl_Add_of_same_paths l1 l2 h t
    exact ⟨heq, fun CSEP parent => by rw [heq]⟩
  · intro rootName paths
    have hs := sortedKeys_foldl_Add paths (Directory.mk rootName []) rfl
    exact ⟨hs, siblingNamesAscending_of_sortedKeys _ hs
      (namesMatchKeys_foldl_Add paths (Directory.mk rootName []) rfl)⟩

theorem Add_order_independent_witness :
    ["b/x", "a/y", "b/x"].foldl Directory.Add (Directory.mk "$(OUTPUT)" []) =
      ["a/y", "b/x"].foldl Directory.Add (Directory.mk "$(OUTPUT)" []) :=
  ((Add_order_independent (Directory.mk "$(OUTPUT)" [])).2.1 ["b/x", "a/y", "b/x"]
    ["a/y", "b/x"]
    (by
      intro p
      simp only [List.mem_cons, List.mem_singleton, List.not_mem_nil, or_false]
      tauto)).1

/-! ## Order and distinctness of the rules -/

theorem prereqsEmitted_mono (rules : List (String × String)) :
    ∀ (known known' : List String), (∀ x ∈ known, x ∈ known') →
      prereqsEmitted known rules = true → prereqsEmitted known' rules = true := by
  induction rules with
  | nil => intro _ _ _ _; rfl
  | cons r rest ih =>
    obtain ⟨t, p⟩ := r
    intro known known' hsub h
    rw [prereqsEmitted, Bool.and_eq_true, decide_eq_true_eq] at h ⊢
    refine ⟨hsub p h.1, ih (t :: known) (t :: known') ?_ h.2⟩
    intro x hx
    rw [List.mem_cons] at hx ⊢
    rcases hx with hx | hx
    · exact Or.inl hx
    · exact Or.inr (hsub x hx)

theorem prereqsEmitted_append (a b : List (String × String)) :
    ∀ (known : List String), prereqsEmitted known a = true →
      prereqsEmitted known b = true → prereqsEmitted known (a ++ b) = true := by
  induction a with
  | nil => intro _ _ hb; exact hb
  | cons r rest ih =>
    obtain ⟨t, p⟩ := r
    intro known ha hb
    rw [prereqsEmitted, Bool.and_eq_true] at ha
    rw [List.cons_append, prereqsEmitted, Bool.and_eq_true]
    exact ⟨ha.1, ih (t :: known) ha.2
      (prereqsEmitted_mono b known (t :: known) (fun x hx => List.mem_cons_of_mem _ hx) hb)⟩

mutual
theorem prereqsEmitted_rulesOfNode (CSEP : Char) :
    ∀ (d : Directory) (parent : String) (known : List String), parent ∈ known →
      prereqsEmitted known (rulesOfNode CSEP d parent) = true
  | Directory.mk name subdirs, parent, known, h => by
    rw [rulesOfNode, prereqsEmitted, Bool.and_eq_true, decide_eq_true_eq]
    exact ⟨h, prereqsEmitted_rulesOfSubdirs CSEP subdirs _ _ (List.mem_cons_self _ _)⟩
theorem prereqsEmitted_rulesOfSubdirs (CSEP : Char) :
    ∀ (subdirs : List (String × Directory)) (path : String) (known : List String),
      path ∈ known → prereqsEmitted known (rulesOfSubdirs CSEP subdirs path) = true
  | [], _, _, _ => rfl
  | (_, d) :: rest, path, known, h => by
    rw [rulesOfSubdirs]
    exact prereqsEmitted_append _ _ known (prereqsEmitted_rulesOfNode CSEP d path known h)
      (prereqsEmitted_rulesOfSubdirs CSEP rest path known h)
end

mutual
theorem targets_rulesOfNode (CSEP : Char) :
    ∀ (d : Directory) (parent : String), namesMatchKeys d = true →
      (rulesOfNode CSEP d parent).map Prod.fst =
        joinKeys CSEP parent [d.name]
          :: (keyPaths d).map (fun q => joinKeys CSEP parent (d.name :: q))
  | Directory.mk name subdirs, parent, h => by
    rw [namesMatchKeys] at h
    rw [rulesOfNode, List.map_cons, targets_rulesOfSubdirs CSEP subdirs _ h, keyPaths]
    rfl
theorem targets_rulesOfSubdirs (CSEP : Char) :
    ∀ (subdirs : List (String × Directory)) (path : String),
      namesMatchKeysSubdirs subdirs = true →
        (rulesOfSubdirs CSEP subdirs path).map Prod.fst =
          (keyPathsSubdirs subdirs).map (joinKeys CSEP path)
  | [], _, _ => rfl
  | (k, d) :: rest, path, h => by
    rw [namesMatchKeysSubdirs, Bool.and_eq_true, Bool.and_eq_true, decide_eq_true_eq] at h
    rw [rulesOfSubdirs, List.map_append, targets_rulesOfNode CSEP d path h.1.2,
      targets_rulesOfSubdirs CSEP rest path h.2, keyPathsSubdirs, h.1.1]
    simp [List.map_map, Function.comp_def]
end

theorem joinKeys_data (CSEP : Char) (keys : List String) :
    ∀ (path : String),
      (joinKeys CSEP path keys).data = path.data ++ keys.flatMap (fun k => CSEP :: k.data) := by
  induction keys with
  | nil => intro path; simp [joinKeys]
  | cons k rest ih =>
    intro path
    have h : joinKeys CSEP path (k :: rest) = joinKeys CSEP (path ++ SSEP CSEP ++ k) rest := rfl
    rw [h, ih, List.flatMap_cons]
    simp [SSEP, String.data_append, String.singleton]

theorem append_eq_append_of_free (c : Char) :
    ∀ (a b X Y : List Char), (∀ x ∈ a, x ≠ c) → (∀ x ∈ b, x ≠ c) →
      (X = [] ∨ ∃ X', X = c :: X') → (Y = [] ∨ ∃ Y', Y = c :: Y') →
      a ++ X = b ++ Y → a = b ∧ X = Y
  | [], [], _, _, _, _, _, _, h => ⟨rfl, h⟩
  | [], y :: b, X, Y, _, hb, hX, _, h => by
    have hy : y ≠ c := hb y (List.mem_cons_self _ _)
    rcases hX with rfl | ⟨X', rfl⟩
    · simp at h
    · simp only [List.nil_append, List.cons_append, List.cons.injEq] at h
      exact absurd h.1.symm hy
  | x :: a, [], X, Y, ha, _, _, hY, h => by
    have hx : x ≠ c := ha x (List.mem_cons_self _ _)
    rcases hY with rfl | ⟨Y', rfl⟩
    · simp at h
    · simp only [List.nil_append, List.cons_append, List.cons.injEq] at h
      exact absurd h.1 hx
  | x :: a, y :: b, X, Y, ha, hb, hX, hY, h => by
    simp only [List.cons_append, List.cons.injEq] at h
    obtain ⟨h1, h2⟩ := append_eq_append_of_free c a b X Y
      (fun z hz => ha z (List.mem_cons_of_mem _ hz))
      (fun z hz => hb z (List.mem_cons_of_mem _ hz)) hX hY h.2
    exact ⟨by rw [h.1, h1], h2⟩

theorem flatMap_keys_shape (c : Char) (keys : List String) :
    keys.flatMap (fun k => c :: k.data) = [] ∨
      ∃ X', keys.flatMap (fun k => c :: k.data) = c :: X' := by
  cases keys with
  | nil => exact Or.inl rfl
  | cons k rest => exact Or.inr ⟨_, by rw [List.flatMap_cons]; rfl⟩

theorem flatMap_keys_injective (c : Char) :
    ∀ (q1 q2 : List String), (∀ k ∈ q1, ∀ x ∈ k.data, x ≠ c) →
      (∀ k ∈ q2, ∀ x ∈ k.data, x ≠ c) →
      q1.flatMap (fun k => c :: k.data) = q2.flatMap (fun k => c :: k.data) → q1 = q2
  | [], [], _, _, _ => rfl
  | [], k :: r, _, _, h => by simp [List.flatMap_cons] at h
  | k :: r, [], _, _, h => by simp [List.flatMap_cons] at h
  | k1 :: r1, k2 :: r2, h1, h2, h => by
    rw [List.flatMap_cons, List.flatMap_cons] at h
    simp only [List.cons_append, List.cons.injEq, true_and] at h
    obtain ⟨hk, hr⟩ := append_eq_append_of_free c k1.data k2.data _ _
      (h1 k1 (List.mem_cons_self _ _)) (h2 k2 (List.mem_cons_self _ _))
      (flatMap_keys_shape c r1) (flatMap_keys_shape c r2) h
    rw [String.ext hk, flatMap_keys_injective c r1 r2
      (fun k hk' => h1 k (List.mem_cons_of_mem _ hk'))
      (fun k hk' => h2 k (List.mem_cons_of_mem _ hk')) hr]

theorem joinKeys_injective (CSEP : Char) (path : String) (q1 q2 : List String)
    (h1 : ∀ k ∈ q1, ∀ x ∈ k.data, x ≠ CSEP) (h2 : ∀ k ∈ q2, ∀ x ∈ k.data, x ≠ CSEP)
    (h : joinKeys CSEP path q1 = joinKeys CSEP path q2) : q1 = q2 := by
  have hd := congrArg String.data h
  rw [joinKeys_data, joinKeys_data] at hd
  exact flatMap_keys_injective CSEP q1 q2 h1 h2 (List.append_cancel_left hd)

theorem pathSegments_no_sep (p : List Char) :
    ∀ s ∈ pathSegments p, ∀ x ∈ s, isSep x = false := by
  induction p with
  | nil => intro s hs x hx; simp [pathSegments] at hs; subst hs; simp at hx
  | cons c r ih =>
    intro s hs x hx
    by_cases hc : isSep c = true
    · rw [pathSegments, if_pos hc] at hs
      by_cases hr : r = []
      · rw [if_pos hr] at hs
        simp at hs
        subst hs
        simp at hx
      · rw [if_neg hr, List.mem_cons] at hs
        rcases hs with rfl | hs
        · simp at hx
        · exact ih s hs x hx
    · rw [Bool.not_eq_true] at hc
      obtain ⟨a, b, hseg, hab⟩ := pathSegments_head_cons c r hc
      rw [hab, List.mem_cons] at hs
      rcases hs with rfl | hs
      · rw [List.mem_cons] at hx
        rcases hx with rfl | hx
        · exact hc
        · exact ih a (by rw [hseg]; exact List.mem_cons_self _ _) x hx
      · exact ih s (by rw [hseg]; exact List.mem_cons_of_mem _ hs) x hx

theorem keys_free_of_mem_prefixes (CSEP : Char) (hsep : isSep CSEP = true)
    (paths : List String) (q : List String)
    (hq : q ∈ paths.flatMap (prefixesBy pathSegments)) :
    ∀ k ∈ q, ∀ x ∈ k.data, x ≠ CSEP := by
  rw [List.mem_flatMap] at hq
  obtain ⟨p, _, hqp⟩ := hq
  unfold prefixesBy at hqp
  have hpre : q <+: (pathSegments p.data).map String.mk :=
    (List.mem_inits _ _).mp (List.mem_of_mem_tail hqp)
  intro k hk x hx hxc
  have hk' := hpre.subset hk
  rw [List.mem_map] at hk'
  obtain ⟨l, hl, rfl⟩ := hk'
  have := pathSegments_no_sep p.data l hl x hx
  rw [hxc, hsep] at this
  exact Bool.noConfusion this

/-- C19: for every Directory tree built by `Directory::Add` under a root with
a non-empty name, the output of `CreateRule` on the root with an empty
ancestor path is the text of a list of rules in which the prerequisite of
every rule is the name of the root or the target of a rule earlier in the
list, and no two rules have the same target.  The separator `CSEP` printed
in the targets is one of the two characters paths are split on. -/
theorem rules_after_parents_distinct (CSEP : Char) (hsep : isSep CSEP = true)
    (rootName : String) (hname : rootName ≠ "") (paths : List String) :
    CreateRule CSEP (paths.foldl Directory.Add (Directory.mk rootName [])) "" =
        renderRules
          (creationRules CSEP (paths.foldl Directory.Add (Directory.mk rootName []))) ∧
      prereqsEmitted [rootName]
        (creationRules CSEP (paths.foldl Directory.Add (Directory.mk rootName []))) = true ∧
      ((creationRules CSEP (paths.foldl Directory.Add (Directory.mk rootName []))).map
        Prod.fst).Nodup := by
  have hroot : (paths.foldl Directory.Add (Directory.mk rootName [])).name = rootName := by
    rw [name_foldl_Add]
    rfl
  have huniq : UniqueKeys (Directory.mk rootName []) := by
    simp [UniqueKeys, UniqueKeysSubdirs]
  obtain ⟨hu, hm⟩ := foldl_Add_invariant paths (Directory.mk rootName []) huniq
  have hnames := namesMatchKeys_foldl_Add paths (Directory.mk rootName []) rfl
  refine ⟨CreateRule_root CSEP _ (by rw [hroot]; exact hname), ?_, ?_⟩
  · rw [creationRules, hroot]
    exact prereqsEmitted_rulesOfSubdirs CSEP _ _ _ (List.mem_singleton.mpr rfl)
  · generalize paths.foldl Directory.Add (Directory.mk rootName []) = t at hu hm hnames
    obtain ⟨n, subs⟩ := t
    rw [namesMatchKeys] at hnames
    rw [creationRules, Directory.subdirs, targets_rulesOfSubdirs CSEP subs _ hnames]
    have hnodup : (keyPathsSubdirs subs).Nodup := by
      have := nodup_keyPaths _ hu
      rwa [keyPaths] at this
    have hfree : ∀ q ∈ keyPathsSubdirs subs, ∀ k ∈ q, ∀ x ∈ k.data, x ≠ CSEP := by
      intro q hq
      have hq' : q ∈ keyPaths (Directory.mk n subs) := by rw [keyPaths]; exact hq
      rcases (hm q).mp hq' with h | h
      · simp [keyPaths, keyPathsSubdirs] at h
      · exact keys_free_of_mem_prefixes CSEP hsep paths q h
    exact List.Nodup.map_on
      (fun q1 hq1 q2 hq2 h => joinKeys_injective CSEP _ q1 q2 (hfree q1 hq1) (hfree q2 hq2) h)
      hnodup

theorem rules_after_parents_distinct_witness :
    ((creationRules '/' (["a/b", "a/c"].foldl Directory.Add (Directory.mk "$(OUTPUT)" []))).map
      Prod.fst).Nodup :=
  (rules_after_parents_distinct '/' (by decide) "$(OUTPUT)" (by decide) ["a/b", "a/c"]).2.2

end Rbuild
